import Mathlib

/-!
Verification of the PackageGet core package-manager abstraction layer.

The Rust sources under `src/core/src` are shallowly embedded: each backend's
parsing / decision logic becomes a pure Lean function over the text that the
external command produced (stdout of `dnf`, `flatpak`, `brew`, `cargo`,
`go`, `rpm`, ...).  A command invocation whose exit status the code inspects
is modelled by an `Option String` argument (`none` = non-zero exit,
`some out` = success with stdout `out`); a per-name subsidiary lookup
(crates.io "latest version", `rpm -q`, `go version -m`) is modelled by a
function argument returning `Option String`.

Rust string operations are reproduced on `List Char`:
`str::lines`, `str::trim`, `split_whitespace`, `split_once`, `rsplit_once`,
`rfind`, and the concrete regular expressions of `cargo.rs` / `go.rs`
are implemented character by character, following the regex semantics
(leftmost match, greedy character classes over disjoint alphabets).
-/

/-! ## Character-list utilities mirroring Rust string primitives -/

/-- `true` on characters outside Rust's `\s` / `char::is_whitespace`
(restricted to the ASCII whitespace actually produced by the tools). -/
def nonWS (c : Char) : Bool := !c.isWhitespace

/-- Split at the first occurrence of `c`: Rust `str::split_once`.
Returns the parts before and after the separator. -/
def splitFirst (c : Char) : List Char → Option (List Char × List Char)
  | [] => none
  | x :: tl =>
    if x = c then some ([], tl)
    else (splitFirst c tl).map fun p => (x :: p.1, p.2)

/-- Accumulator loop for `splitChar`. -/
def splitCharAux (c : Char) : List Char → List Char → List (List Char)
  | [], acc => [acc.reverse]
  | x :: tl, acc =>
    if x = c then acc.reverse :: splitCharAux c tl []
    else splitCharAux c tl (x :: acc)

/-- Rust `str::split(c)`: every maximal `c`-free piece, empty pieces kept. -/
def splitChar (c : Char) (l : List Char) : List (List Char) := splitCharAux c l []

/-- Strip one trailing carriage return, as Rust `str::lines` does. -/
def stripCr (l : List Char) : List Char :=
  if l.getLast? = some '\r' then l.dropLast else l

/-- Accumulator loop for `splitLines`. -/
def splitLinesAux : List Char → List Char → List (List Char)
  | [], acc => if acc.isEmpty then [] else [stripCr acc.reverse]
  | x :: tl, acc =>
    if x = '\n' then stripCr acc.reverse :: splitLinesAux tl []
    else splitLinesAux tl (x :: acc)

/-- Rust `str::lines`: split on `'\n'`, drop a final empty segment,
strip one trailing `'\r'` per line. -/
def splitLines (l : List Char) : List (List Char) := splitLinesAux l []

/-- Accumulator loop for `splitWS`. -/
def splitWSAux : List Char → List Char → List (List Char)
  | [], acc => if acc.isEmpty then [] else [acc.reverse]
  | x :: tl, acc =>
    if x.isWhitespace then
      (if acc.isEmpty then splitWSAux tl [] else acc.reverse :: splitWSAux tl [])
    else splitWSAux tl (x :: acc)

/-- Rust `str::split_whitespace`: maximal non-whitespace tokens, no empties. -/
def splitWS (l : List Char) : List (List Char) := splitWSAux l []

/-- Rust `str::trim` on a character list. -/
def trimChars (l : List Char) : List Char :=
  ((l.dropWhile Char.isWhitespace).reverse.dropWhile Char.isWhitespace).reverse

/-- Index of the last occurrence of `c`: Rust `str::rfind(c)`
(char positions; the sources slice only at ASCII delimiters). -/
def rlastIdx (c : Char) (l : List Char) : Option Nat :=
  match splitFirst c l.reverse with
  | none => none
  | some (a, _) => some (l.length - 1 - a.length)

/-- Split at the last occurrence of `c`: Rust `str::rsplit_once(c)`,
returning (before, after). -/
def rsplitOnce (c : Char) (l : List Char) : Option (List Char × List Char) :=
  match splitFirst c l.reverse with
  | none => none
  | some (a, b) => some (b.reverse, a.reverse)

/-! ## Common data model (`src/core/src/lib.rs`, `src/core/src/error.rs`) -/

/-- `PackageManagerType` from `lib.rs`. -/
inductive PackageManagerType where
  | Dnf
  | Flatpak
  | Homebrew
  | Cargo
  | Go
deriving DecidableEq, Repr

/-- `CoreError` from `error.rs`. -/
inductive CoreError where
  | CommandError (msg : String)
  | Utf8Error (msg : String)
  | ParseError (msg : String)
  | UnknownError (msg : String)
  | SerializationError (msg : String)
  | RequestError (msg : String)
deriving DecidableEq, Repr

/-- Decidable equality for `Except` results over the error taxonomy. -/
instance exceptDecEq {e a : Type} [DecidableEq e] [DecidableEq a] :
    DecidableEq (Except e a)
  | .ok x, .ok y =>
    if h : x = y then .isTrue (by rw [h]) else .isFalse (by simp [h])
  | .ok _, .error _ => .isFalse (by simp)
  | .error _, .ok _ => .isFalse (by simp)
  | .error x, .error y =>
    if h : x = y then .isTrue (by rw [h]) else .isFalse (by simp [h])

/-- `PackageUpdate` from `lib.rs`. -/
structure PackageUpdate where
  name : String
  current_version : String
  new_version : String
deriving DecidableEq, Repr

/-- `PackageInfo` from `lib.rs`. -/
structure PackageInfo where
  name : String
  version : String
  source : PackageManagerType
  description : Option String
  size : Option Nat
  install_date : Option String
  homepage : Option String
deriving DecidableEq, Repr

/-- `InstalledCrate` from `cargo.rs`. -/
structure InstalledCrate where
  name : String
  version : String
  bins : List String
deriving DecidableEq, Repr

/-! ## Cargo backend (`src/core/src/pm/cargo.rs`) -/

namespace CargoManager

/-- The regex `^(\S+)\s+v([\d\.]+):$` of `parse_cargo_install_list`:
a crate header line `<name> v<version>:`.  `\S`/`\s` are disjoint and
`[\d\.]` excludes `:`, so greedy matching is equivalent to taking maximal
runs and requiring exactly `":"` to remain. -/
def crateLine (l : List Char) : Option (List Char × List Char) :=
  let name := l.takeWhile nonWS
  let rest := l.dropWhile nonWS
  if name.isEmpty then none
  else
    let ws := rest.takeWhile Char.isWhitespace
    let rest2 := rest.dropWhile Char.isWhitespace
    if ws.isEmpty then none
    else
      match rest2 with
      | 'v' :: tl =>
        let ver := tl.takeWhile fun c => c.isDigit || c = '.'
        let after := tl.dropWhile fun c => c.isDigit || c = '.'
        if ver.isEmpty then none
        else if after = [':'] then some (name, ver) else none
      | _ => none

/-- The regex `^\s+(\S+)` of `parse_cargo_install_list`: an indented line;
the capture is the first non-whitespace token. -/
def binLine (l : List Char) : Option (List Char) :=
  let ws := l.takeWhile Char.isWhitespace
  if ws.isEmpty then none
  else
    let tok := (l.dropWhile Char.isWhitespace).takeWhile nonWS
    if tok.isEmpty then none else some tok

/-- The line loop of `parse_cargo_install_list`: state is the accumulated
records plus the crate currently being filled. -/
def parseLoop : List (List Char) → List InstalledCrate → Option InstalledCrate →
    List InstalledCrate
  | [], res, cur => res ++ cur.toList
  | l :: ls, res, cur =>
    match crateLine l with
    | some (n, v) =>
      parseLoop ls (res ++ cur.toList) (some ⟨n.asString, v.asString, []⟩)
    | none =>
      match binLine l with
      | some b => parseLoop ls res (cur.map fun c => { c with bins := c.bins ++ [b.asString] })
      | none => parseLoop ls res cur

/-- `CargoManager::parse_cargo_install_list`. -/
def parse_cargo_install_list (input : String) : List InstalledCrate :=
  parseLoop (splitLines input.data) [] none

/-- `CargoManager::list_updates`, with the stdout of `cargo install --list`
and the per-crate crates.io `get_latest_version` outcome as inputs
(`none` = that lookup failed). -/
def list_updates (stdout : String) (getLatest : String → Option String) :
    List PackageUpdate :=
  (parse_cargo_install_list stdout).flatMap fun inst =>
    match getLatest inst.name with
    | some latest =>
      if latest ≠ inst.version then
        [⟨inst.name, inst.version, latest⟩]
      else []
    | none => []

/-- `CargoManager::get_current_version`, with the stdout of
`cargo install --list` as input. -/
def get_current_version (stdout : String) (package_name : String) :
    Except CoreError String :=
  match (parse_cargo_install_list stdout).find? (fun c => c.name = package_name) with
  | some c => .ok c.version
  | none => .error (.UnknownError ("Package " ++ package_name ++ " not installed"))

end CargoManager

/-! ## Homebrew backend (`src/core/src/pm/homebrew.rs`) -/

namespace HomebrewManager

/-- `HomebrewManager::parse_name_and_version`: locate the last `'('` and the
last `')'`; fail when the last `'('` is not strictly before the last `')'`;
the name is the trimmed text before `'('`, the version the trimmed text
between them. -/
def parse_name_and_version (s : List Char) : Option (List Char × List Char) :=
  match rlastIdx '(' s, rlastIdx ')' s with
  | some op, some cl =>
    if op ≥ cl then none
    else some (trimChars (s.take op), trimChars ((s.drop (op + 1)).take (cl - op - 1)))
  | _, _ => none

/-- `HomebrewManager::list_updates`, with the stdout of
`brew outdated --verbose` as input. -/
def list_updates (stdout : String) : List PackageUpdate :=
  (splitLines stdout.data).flatMap fun line =>
    let line := trimChars line
    if line.isEmpty then []
    else
      match splitFirst '<' line with
      | some (nameAndCurrent, newVersion) =>
        let nameAndCurrent := trimChars nameAndCurrent
        let newVersion := trimChars newVersion
        match parse_name_and_version nameAndCurrent with
        | some (name, currentVersion) =>
          [⟨name.asString, currentVersion.asString, newVersion.asString⟩]
        | none => []
      | none => []

/-- `HomebrewManager::get_current_version`, with the outcome of
`brew list --versions <name>` as input (`none` = non-zero exit). -/
def get_current_version (out : Option String) (package_name : String) :
    Except CoreError String :=
  match out with
  | none =>
    .error (.UnknownError ("brew list --versions " ++ package_name ++ " failed"))
  | some stdout =>
    let line := trimChars stdout.data
    if line.isEmpty then
      .error (.UnknownError ("Package " ++ package_name ++ " not found"))
    else
      let parts := splitWS line
      if parts.length ≥ 2 then
        .ok ((parts.getLast?.getD []).asString)
      else
        .error (.UnknownError "Failed to parse version")

/-- `HomebrewManager::count_installed`, with the outcome of `brew list` as
input (`none` = non-zero exit): failure yields `Ok 0`, success counts the
lines whose trimmed text is non-empty. -/
def count_installed (out : Option String) : Except CoreError Nat :=
  match out with
  | none => .ok 0
  | some stdout =>
    .ok ((splitLines stdout.data).filter fun l => !(trimChars l).isEmpty).length

/-- `HomebrewManager::get_all_installed_info`, with the stdout of
`brew list --versions` as input: a name-keyed map (modelled as an insertion
list with overwrite) from each line's first token to its last token. -/
def insertAssoc (k v : String) : List (String × String) → List (String × String)
  | [] => [(k, v)]
  | (k', v') :: tl => if k' = k then (k, v) :: tl else (k', v') :: insertAssoc k v tl

/-- The line fold of `get_all_installed_info`. -/
def get_all_installed_info (stdout : String) : List (String × String) :=
  (splitLines stdout.data).foldl
    (fun m line =>
      let line := trimChars line
      if line.isEmpty then m
      else
        let parts := splitWS line
        if parts.length ≥ 2 then
          insertAssoc (parts.headD []).asString ((parts.getLast?.getD []).asString) m
        else m)
    []

/-- The fallback branch of `HomebrewManager::list_installed` taken when
`brew info --json=v2 --installed` exits non-zero: map the
`get_all_installed_info` entries to bare `PackageInfo` records
(`none` = `brew list --versions` itself failed → `CommandError`). -/
def list_installed_fallback (versionsOut : Option String) :
    Except CoreError (List PackageInfo) :=
  match versionsOut with
  | none => .error (.CommandError "brew list --versions failed")
  | some stdout =>
    .ok ((get_all_installed_info stdout).map fun (name, version) =>
      ⟨name, version, .Homebrew, none, none, none, none⟩)

end HomebrewManager

/-! ## DNF backend (`src/core/src/pm/dnf.rs`) -/

namespace DnfManager

/-- The two banner prefixes skipped by `DnfManager::list_updates`. -/
def banner1 : List Char := "Updating and loading repositories:".data

/-- Second banner prefix. -/
def banner2 : List Char := "Repositories loaded.".data

/-- The line loop of `DnfManager::list_updates`; `seen` models the
`HashSet` of already-processed names, `getCur` the per-name
`get_current_version` outcome (`none` = lookup failed). -/
def updatesLoop (getCur : String → Option String) :
    List (List Char) → List String → List PackageUpdate
  | [], _ => []
  | line :: ls, seen =>
    let line := trimChars line
    if line.isEmpty || banner1.isPrefixOf line || banner2.isPrefixOf line then
      updatesLoop getCur ls seen
    else
      let parts := splitWS line
      if parts.length < 2 then updatesLoop getCur ls seen
      else
        let tok := parts.headD []
        let name := match rsplitOnce '.' tok with
          | some (n, _) => n
          | none => tok
        let name := name.asString
        if seen.contains name then updatesLoop getCur ls seen
        else
          let newVersion := (parts.get? 1).getD []
          let currentVersion := (getCur name).getD "unknown"
          ⟨name, currentVersion, newVersion.asString⟩ ::
            updatesLoop getCur ls (name :: seen)

/-- `DnfManager::list_updates`, with the stdout of `dnf check-upgrade` and
the per-name `get_current_version` outcome as inputs. -/
def list_updates (stdout : String) (getCur : String → Option String) :
    List PackageUpdate :=
  updatesLoop getCur (splitLines stdout.data) []

/-- `DnfManager::get_current_version`, with the outcome of
`rpm -q --queryformat %{VERSION}-%{RELEASE} <name>` as input
(`none` = non-zero exit). -/
def get_current_version (rpmOut : Option String) (package_name : String) :
    Except CoreError String :=
  match rpmOut with
  | some out => .ok (trimChars out.data).asString
  | none => .error (.ParseError ("Package " ++ package_name ++ " not found"))

/-- Rust `str::parse::<u64>` (as used for `%{SIZE}`): optional sign `+`,
at least one ASCII digit, value below `2^64`. -/
def parseU64 (s : List Char) : Option Nat :=
  let digits := match s with
    | '+' :: tl => tl
    | l => l
  if digits.isEmpty || !digits.all Char.isDigit then none
  else
    let v := digits.foldl (fun acc c => acc * 10 + (c.toNat - 48)) 0
    if v < 2 ^ 64 then some v else none

/-- Rust `str::parse::<i64>` (as used for `%{INSTALLTIME}`): optional sign,
digits, value within the `i64` range. -/
def parseI64 (s : List Char) : Option Int :=
  let (neg, digits) := match s with
    | '-' :: tl => (true, tl)
    | '+' :: tl => (false, tl)
    | l => (false, l)
  if digits.isEmpty || !digits.all Char.isDigit then none
  else
    let v : Int := digits.foldl (fun acc c => acc * 10 + ((c.toNat : Int) - 48)) 0
    let v := if neg then -v else v
    if -(2 ^ 63) ≤ v ∧ v < 2 ^ 63 then some v else none

/-- `DnfManager::list_installed`, with the outcome of the `rpm -qa`
query as input (`none` = non-zero exit).  `formatDate` abstracts
`chrono::DateTime::from_timestamp` plus `%Y-%m-%d %H:%M:%S` formatting
(an external time library; `none` = out-of-range timestamp). -/
def list_installed (formatDate : Int → Option String) (qaOut : Option String) :
    Except CoreError (List PackageInfo) :=
  match qaOut with
  | none => .error (.UnknownError "rpm -qa failed")
  | some stdout =>
    .ok ((splitLines stdout.data).filterMap fun line =>
      let parts := splitChar '\t' line
      if parts.length ≥ 2 then
        let description := (parts.get? 2).bind fun s =>
          if !s.isEmpty && s ≠ "(none)".data then some s.asString else none
        let size := (parts.get? 3).bind parseU64
        let installDate := (parts.get? 4).bind fun s =>
          if !s.isEmpty && s ≠ "(none)".data then
            (parseI64 s).bind formatDate
          else none
        let homepage := (parts.get? 5).bind fun s =>
          if !s.isEmpty && s ≠ "(none)".data then some s.asString else none
        some ⟨(parts.headD []).asString, ((parts.get? 1).getD []).asString, .Dnf,
          description, size, installDate, homepage⟩
      else none)

/-- Rust's `ParseIntError` display text for a failing `str::parse::<usize>`. -/
def parseIntErrorMsg (s : List Char) : String :=
  if s.isEmpty then "cannot parse integer from empty string"
  else if !(match s with | '+' :: tl => tl | l => l).all Char.isDigit ∨
      (match s with | '+' :: tl => tl | l => l).isEmpty then
    "invalid digit found in string"
  else "number too large to fit in target type"

/-- `DnfManager::count_installed`, with the outcome of the
`sh -c "rpm -qa | wc -l"` pipeline and the inputs of `list_installed`:
a non-zero pipeline exit falls back to the length of `list_installed`. -/
def count_installed (formatDate : Int → Option String)
    (pipeOut : Option String) (qaOut : Option String) : Except CoreError Nat :=
  match pipeOut with
  | none => (list_installed formatDate qaOut).map List.length
  | some stdout =>
    let countStr := trimChars stdout.data
    match parseU64 countStr with
    | some n => .ok n
    | none => .error (.ParseError ("Failed to parse count: " ++ parseIntErrorMsg countStr))

end DnfManager

/-- The default `PackageManager::count_installed` of the trait in `lib.rs`:
`Ok(Self::list_installed(config).await?.len())`. -/
def defaultCountInstalled (listResult : Except CoreError (List PackageInfo)) :
    Except CoreError Nat := do
  let l ← listResult
  return l.length

/-! ## Flatpak backend (`src/core/src/pm/flatpak.rs`) -/

namespace FlatpakManager

/-- Insertion into the `HashMap<String,(String,String)>` of
`get_all_installed_info`, modelled as an overwrite-on-key list insert. -/
def insertInfo (k : List Char) (v : List Char × List Char) :
    List (List Char × (List Char × List Char)) →
    List (List Char × (List Char × List Char))
  | [] => [(k, v)]
  | (k', v') :: tl => if k' = k then (k, v) :: tl else (k', v') :: insertInfo k v tl

/-- `FlatpakManager::get_all_installed_info`, with the stdout of
`flatpak list --columns=application,version,branch` as input: skips the
first line (header), splits on whitespace, and keys by application ID with
1/2/3-column handling. -/
def get_all_installed_info (stdout : String) :
    List (List Char × (List Char × List Char)) :=
  match splitLines stdout.data with
  | [] => []
  | _ :: rest =>
    rest.foldl
      (fun m line =>
        let line := trimChars line
        if line.isEmpty then m
        else
          match splitWS line with
          | [a, v, b] => insertInfo a (v, b) m
          | [a, b] => insertInfo a ([], b) m
          | [a] => insertInfo a ([], "unknown".data) m
          | _ => m)
      []

/-- The version normalization applied throughout `flatpak.rs`:
`"branch: <branch>"` when the version column is empty,
`"<version> (<branch>)"` otherwise. -/
def normalizeVersionChars (v b : List Char) : List Char :=
  if v.isEmpty then "branch: ".data ++ b else v ++ " (".data ++ b ++ [')']

/-- String-level wrapper of `normalizeVersionChars`. -/
def normalizeVersion (v b : String) : String :=
  (normalizeVersionChars v.data b.data).asString

/-- `FlatpakManager::list_updates`, with the stdout of
`flatpak list --updates --app --columns=application,version,branch
--no-heading` and of the installed listing as inputs. -/
def list_updates (updatesOut : String) (installedOut : String) :
    List PackageUpdate :=
  let installedInfo := get_all_installed_info installedOut
  (splitLines updatesOut.data).flatMap fun line =>
    let line := trimChars line
    if line.isEmpty then []
    else
      let parts := splitChar '\t' line
      if parts.isEmpty then []
      else
        let appId := parts.headD []
        let newVersion := ((parts.get? 1).map trimChars).getD []
        let newBranch := ((parts.get? 2).map trimChars).getD "unknown".data
        let currentVersion :=
          match installedInfo.lookup appId with
          | some (v, b) => normalizeVersionChars v b
          | none => "unknown".data
        let newVersionStr := normalizeVersionChars newVersion newBranch
        [⟨appId.asString, currentVersion.asString, newVersionStr.asString⟩]

/-- `FlatpakManager::get_current_version`, with the outcomes of
`flatpak info --show-version <name>` (errors collapse to the empty string)
and `flatpak info --show-branch <name>` (`none` = non-zero exit) as
inputs. -/
def get_current_version (versionOut branchOut : Option String)
    (package_name : String) : Except CoreError String :=
  let version := trimChars (versionOut.getD "").data
  match branchOut with
  | none => .error (.UnknownError ("Package " ++ package_name ++ " not found"))
  | some bout =>
    let branch := trimChars bout.data
    .ok (normalizeVersionChars version branch).asString

end FlatpakManager

/-! ## Go backend (`src/core/src/pm/go.rs`) and the configuration
(`src/core/src/storage.rs`) -/

namespace GoManager

/-- Try every start position, leftmost first: the search semantics of
`Regex::captures` for the unanchored patterns in `go.rs`. -/
def scanFirst (f : List Char → Option (List Char)) : List Char → Option (List Char)
  | [] => f []
  | l@(_ :: tl) =>
    match f l with
    | some r => some r
    | none => scanFirst f tl

/-- Match `path\s+([^\s]+)` at one position: literal `path`, then at least
one whitespace character, then the captured maximal non-whitespace run. -/
def matchPathAt : List Char → Option (List Char)
  | 'p' :: 'a' :: 't' :: 'h' :: rest =>
    let ws := rest.takeWhile Char.isWhitespace
    if ws.isEmpty then none
    else
      let tok := (rest.dropWhile Char.isWhitespace).takeWhile nonWS
      if tok.isEmpty then none else some tok
  | _ => none

/-- `v[0-9]+\.[0-9]+\.[0-9]+` as a prefix check on a token. -/
def semverPrefix (tok : List Char) : Bool :=
  match tok with
  | 'v' :: r =>
    let d1 := r.takeWhile Char.isDigit
    (!d1.isEmpty) &&
      (match r.dropWhile Char.isDigit with
       | '.' :: r2 =>
         let d2 := r2.takeWhile Char.isDigit
         (!d2.isEmpty) &&
           (match r2.dropWhile Char.isDigit with
            | '.' :: r3 => !(r3.takeWhile Char.isDigit).isEmpty
            | _ => false)
       | _ => false)
  | _ => false

/-- Match `mod\s+[^\s]+\s+(v[0-9]+\.[0-9]+\.[0-9]+[^\s]*)` at one position:
the capture is the maximal non-whitespace run of the third field, accepted
only when it starts like a semantic version. -/
def matchModAt : List Char → Option (List Char)
  | 'm' :: 'o' :: 'd' :: rest =>
    let ws1 := rest.takeWhile Char.isWhitespace
    if ws1.isEmpty then none
    else
      let r1 := rest.dropWhile Char.isWhitespace
      let tok1 := r1.takeWhile nonWS
      if tok1.isEmpty then none
      else
        let r2 := r1.dropWhile nonWS
        let ws2 := r2.takeWhile Char.isWhitespace
        if ws2.isEmpty then none
        else
          let tok2 := (r2.dropWhile Char.isWhitespace).takeWhile nonWS
          if tok2.isEmpty then none
          else if semverPrefix tok2 then some tok2 else none
  | _ => none

/-- `GoManager::extract_module_path`: first match of `path\s+([^\s]+)`. -/
def extract_module_path (info : String) : Option String :=
  (scanFirst matchPathAt info.data).map List.asString

/-- `GoManager::extract_version`: first match of
`mod\s+[^\s]+\s+(v[0-9]+\.[0-9]+\.[0-9]+[^\s]*)`. -/
def extract_version (info : String) : Option String :=
  (scanFirst matchModAt info.data).map List.asString

/-- An installed Go binary as discovered by `list_installed_binaries`. -/
structure InstalledBinary where
  name : String
  path : String
deriving DecidableEq, Repr

/-- `GoManager::list_updates`, with the discovered binaries, the per-binary
`go version -m` outcome, and the per-module `get_latest_version` outcome
(last whitespace token of `go list -m -versions`, `""` when that output has
no token) as inputs. -/
def list_updates (binaries : List InstalledBinary)
    (getInfo : String → Option String) (getLatest : String → Option String) :
    List PackageUpdate :=
  binaries.flatMap fun binary =>
    match getInfo binary.path with
    | none => []
    | some info =>
      match extract_module_path info with
      | none => []
      | some module =>
        match getLatest module with
        | none => []
        | some latest =>
          match extract_version info with
          | some localVersion =>
            if localVersion ≠ latest ∧ ¬latest.isEmpty then
              [⟨binary.name, localVersion, latest⟩]
            else []
          | none => []

/-- `GoManager::get_current_version`: first binary whose module path or file
name equals the requested name and whose version extracts. -/
def get_current_version (binaries : List InstalledBinary)
    (getInfo : String → Option String) (package_name : String) :
    Except CoreError String :=
  match binaries.findSome? (fun binary =>
    match getInfo binary.path with
    | none => none
    | some info =>
      match extract_module_path info with
      | none => none
      | some module =>
        if module = package_name ∨ binary.name = package_name then
          extract_version info
        else none) with
  | some version => .ok version
  | none => .error (.UnknownError ("Package " ++ package_name ++ " not installed"))

/-- The bin-directory resolution hard-coded in
`GoManager::uninstall_packages`: `GOBIN`, else `GOPATH/bin`, else
`$HOME/go/bin` with a missing `HOME` defaulting to the empty string.  The
configured override is not consulted. -/
def uninstallBinDir (gobin gopath home : Option String) : String :=
  match gobin with
  | some g => g
  | none =>
    match gopath with
    | some p => p ++ "/bin"
    | none => (home.getD "") ++ "/go/bin"

/-- `name.split('/').next_back().unwrap_or(name)`: the last `/`-separated
segment of a module path. -/
def lastSegment (name : String) : String :=
  (((splitChar '/' name.data).getLast?).getD name.data).asString

/-- `GoManager::uninstall_packages`, with the environment variables and the
set of existing files (the filesystem) as inputs: per name, remove
`<dir>/<last segment>`; a failed removal (file absent) aborts with an
error.  Returns the remaining files. -/
def uninstall_packages (gobin gopath home : Option String)
    (files : List String) : List String → Except CoreError (List String)
  | [] => .ok files
  | name :: rest =>
    let binaryName := lastSegment name
    let binaryPath := uninstallBinDir gobin gopath home ++ "/" ++ binaryName
    if binaryPath ∈ files then
      uninstall_packages gobin gopath home (files.erase binaryPath) rest
    else
      .error (.UnknownError ("Failed to remove Go binary " ++ binaryName ++
        ": No such file or directory (os error 2)"))

end GoManager

namespace Config

/-- `Config::get_go_bin_dir` from `storage.rs`: the configured override,
else `GOBIN`, else `GOPATH/bin`, else the user's home directory joined with
`go/bin` (`"go/bin"` when no home directory resolves). -/
def get_go_bin_dir (goBinDir gobin gopath homeDir : Option String) : String :=
  match goBinDir with
  | some dir => dir
  | none =>
    match gobin with
    | some g => g
    | none =>
      match gopath with
      | some p => p ++ "/bin"
      | none =>
        match homeDir with
        | some h => h ++ "/go/bin"
        | none => "go/bin"

end Config

/-! ## Structured `cargo install --list` outputs

To quantify over all well-formed `cargo install --list` texts we render a
structured listing — a sequence of crate entries, each a header line
(optionally carrying a parenthesized local path) followed by indented
binary lines — to text, and compare `parse_cargo_install_list` on the
rendered text against the reference extraction. -/

namespace CargoManager

/-- One crate entry of a `cargo install --list` report. -/
structure Entry where
  name : List Char
  version : List Char
  localPath : Option (List Char)
  bins : List (List Char)

/-- The header line of an entry:
`<name> v<version>:`, or `<name> v<version> (<path>):` for local crates. -/
def headerChars (e : Entry) : List Char :=
  e.name ++ ' ' :: 'v' :: e.version ++
    (match e.localPath with
     | none => [':']
     | some p => ' ' :: '(' :: p ++ [')', ':'])

/-- An indented binary line (four spaces, as `cargo` prints). -/
def binLineChars (b : List Char) : List Char := ' ' :: ' ' :: ' ' :: ' ' :: b

/-- All lines of one entry. -/
def entryLines (e : Entry) : List (List Char) := headerChars e :: e.bins.map binLineChars

/-- The rendered text: every line terminated by a newline. -/
def renderListing (es : List Entry) : String :=
  ((es.flatMap entryLines).flatMap fun l => l ++ ['\n']).asString

/-- A non-empty, whitespace-free token. -/
def wfToken (l : List Char) : Prop := l ≠ [] ∧ ∀ c ∈ l, nonWS c = true

/-- A non-empty version of digits and dots (what the regex accepts). -/
def wfVersion (l : List Char) : Prop :=
  l ≠ [] ∧ ∀ c ∈ l, (c.isDigit || c = '.') = true

/-- Well-formedness of an entry: token-shaped name and binaries, digit/dot
version, and a local path free of line breaks. -/
def wfEntry (e : Entry) : Prop :=
  wfToken e.name ∧ wfVersion e.version ∧
    (∀ p, e.localPath = some p → '\n' ∉ p ∧ '\r' ∉ p) ∧
    ∀ b ∈ e.bins, wfToken b

/-- Reference extraction: non-local entries become records; the binary
lines of an excluded local entry are appended to the record currently
being built (and dropped when there is none). -/
def expectedLoop : Option InstalledCrate → List Entry → List InstalledCrate
  | cur, [] => cur.toList
  | cur, e :: es =>
    match e.localPath with
    | none =>
      cur.toList ++
        expectedLoop (some ⟨e.name.asString, e.version.asString, e.bins.map List.asString⟩) es
    | some _ =>
      expectedLoop (cur.map fun c => { c with bins := c.bins ++ e.bins.map List.asString }) es

/-- Records extracted from a structured listing. -/
def expectedRecords (es : List Entry) : List InstalledCrate := expectedLoop none es

/-- Well-formedness of tokens is decidable. -/
instance wfTokenDec (l : List Char) : Decidable (wfToken l) :=
  decidable_of_iff (l ≠ [] ∧ ∀ c ∈ l, nonWS c = true) Iff.rfl

/-- Well-formedness of versions is decidable. -/
instance wfVersionDec (v : List Char) : Decidable (wfVersion v) :=
  decidable_of_iff (v ≠ [] ∧ ∀ c ∈ v, (c.isDigit || c = '.') = true) Iff.rfl

/-- Well-formedness of entries is decidable. -/
instance wfEntryDec (e : Entry) : Decidable (wfEntry e) :=
  decidable_of_iff (wfToken e.name ∧ wfVersion e.version ∧
    (∀ p ∈ e.localPath.toList, '\n' ∉ p ∧ '\r' ∉ p) ∧ ∀ b ∈ e.bins, wfToken b)
    (by
      unfold wfEntry
      cases hl : e.localPath <;> simp [hl, Option.toList])

end CargoManager

/-! ## Utility lemmas -/

theorem takeWhile_all {p : Char → Bool} {l : List Char} (h : ∀ c ∈ l, p c = true) :
    l.takeWhile p = l := by
  induction l with
  | nil => rfl
  | cons x tl ih =>
    simp [List.takeWhile_cons_of_pos (h x (by simp)),
      ih fun c hc => h c (by simp [hc])]

theorem dropWhile_all {p : Char → Bool} {l : List Char} (h : ∀ c ∈ l, p c = true) :
    l.dropWhile p = [] := by
  induction l with
  | nil => rfl
  | cons x tl ih =>
    simp [List.dropWhile_cons_of_pos (h x (by simp)),
      ih fun c hc => h c (by simp [hc])]

theorem takeWhile_all_not {p : Char → Bool} {l : List Char} (h : ∀ c ∈ l, p c = false) :
    l.takeWhile p = [] := by
  cases l with
  | nil => rfl
  | cons x tl => simp [List.takeWhile_cons, h x (by simp)]

theorem dropWhile_all_not {p : Char → Bool} {l : List Char} (h : ∀ c ∈ l, p c = false) :
    l.dropWhile p = l := by
  cases l with
  | nil => rfl
  | cons x tl => simp [List.dropWhile_cons, h x (by simp)]

theorem takeWhile_append_neg {p : Char → Bool} {l₁ l₂ : List Char} {x : Char}
    (h₁ : ∀ c ∈ l₁, p c = true) (h₂ : p x = false) :
    (l₁ ++ x :: l₂).takeWhile p = l₁ := by
  simp [List.takeWhile_append_of_pos h₁, List.takeWhile_cons, h₂]

theorem dropWhile_append_neg {p : Char → Bool} {l₁ l₂ : List Char} {x : Char}
    (h₁ : ∀ c ∈ l₁, p c = true) (h₂ : p x = false) :
    (l₁ ++ x :: l₂).dropWhile p = x :: l₂ := by
  simp [List.dropWhile_append_of_pos h₁, List.dropWhile_cons, h₂]

theorem nonWS_ne_nl {c : Char} (h : nonWS c = true) : c ≠ '\n' := by
  rintro rfl; simp [nonWS, Char.isWhitespace] at h

theorem nonWS_ne_cr {c : Char} (h : nonWS c = true) : c ≠ '\r' := by
  rintro rfl; simp [nonWS, Char.isWhitespace] at h

theorem isWhitespace_cases {c : Char} (hw : c.isWhitespace = true) :
    c = ' ' ∨ c = '\t' ∨ c = '\r' ∨ c = '\n' := by
  simpa [Char.isWhitespace, Bool.or_eq_true_iff, decide_eq_true_eq, or_assoc] using hw

theorem digitDot_nonWS {c : Char} (h : (c.isDigit || c = '.') = true) : nonWS c = true := by
  by_contra hne
  have hw : c.isWhitespace = true := by
    simpa [nonWS, Bool.not_eq_true'] using hne
  rcases isWhitespace_cases hw with rfl | rfl | rfl | rfl <;> exact absurd h (by decide)

theorem splitFirst_eq_none {c : Char} {l : List Char} (h : c ∉ l) :
    splitFirst c l = none := by
  induction l with
  | nil => rfl
  | cons x tl ih =>
    simp only [List.mem_cons, not_or] at h
    simp [splitFirst, Ne.symm h.1, ih h.2]

theorem splitFirst_append {c : Char} {l₁ l₂ : List Char} (h : c ∉ l₁) :
    splitFirst c (l₁ ++ c :: l₂) = some (l₁, l₂) := by
  induction l₁ with
  | nil => simp [splitFirst]
  | cons x tl ih =>
    simp only [List.mem_cons, not_or] at h
    simp [splitFirst, Ne.symm h.1, ih h.2]

theorem mem_of_getLast?_eq {l : List Char} {c : Char} (h : l.getLast? = some c) :
    c ∈ l := by
  induction l with
  | nil => simp at h
  | cons x tl ih =>
    cases tl with
    | nil =>
      simp only [List.getLast?_singleton, Option.some_inj] at h
      simp [h]
    | cons y ys =>
      rw [List.getLast?_cons_cons] at h
      exact List.mem_cons_of_mem _ (ih h)

theorem stripCr_eq_self {l : List Char} (h : '\r' ∉ l) : stripCr l = l := by
  unfold stripCr
  cases hl : l.getLast? with
  | none => simp
  | some c =>
    by_cases hcr : c = '\r'
    · subst hcr; exact absurd (mem_of_getLast?_eq hl) h
    · simp [Option.some_inj, hcr]

theorem splitLinesAux_append {a : List Char} (ha : '\n' ∉ a) :
    ∀ (rest acc : List Char),
      splitLinesAux (a ++ '\n' :: rest) acc =
        stripCr (acc.reverse ++ a) :: splitLinesAux rest [] := by
  induction a with
  | nil => intro rest acc; simp [splitLinesAux]
  | cons x tl ih =>
    intro rest acc
    simp only [List.mem_cons, not_or] at ha
    have hx : ¬(x = '\n') := fun hc => ha.1 hc.symm
    simp only [List.cons_append, splitLinesAux, if_neg hx, List.append_eq]
    rw [ih ha.2]
    simp

theorem splitLines_cons_line {a rest : List Char} (hn : '\n' ∉ a) (hr : '\r' ∉ a) :
    splitLines (a ++ '\n' :: rest) = a :: splitLines rest := by
  unfold splitLines
  rw [splitLinesAux_append hn]
  simp [stripCr_eq_self hr]

theorem splitLines_flat {lines : List (List Char)}
    (h : ∀ l ∈ lines, '\n' ∉ l ∧ '\r' ∉ l) :
    splitLines (lines.flatMap fun l => l ++ ['\n']) = lines := by
  induction lines with
  | nil => rfl
  | cons l ls ih =>
    have hl := h l (by simp)
    rw [List.flatMap_cons, List.append_assoc, List.singleton_append,
      splitLines_cons_line hl.1 hl.2, ih fun x hx => h x (by simp [hx])]

theorem splitLinesAux_no_newline {a : List Char} (ha : '\n' ∉ a) :
    ∀ acc : List Char,
      splitLinesAux a acc =
        if (acc.reverse ++ a).isEmpty then [] else [stripCr (acc.reverse ++ a)] := by
  induction a with
  | nil => intro acc; simp [splitLinesAux]
  | cons x tl ih =>
    intro acc
    simp only [List.mem_cons, not_or] at ha
    have hx : ¬(x = '\n') := fun hc => ha.1 hc.symm
    simp only [splitLinesAux, if_neg hx]
    rw [ih ha.2]
    simp [List.isEmpty_iff]

theorem splitLines_single {a : List Char} (hne : a ≠ []) (hn : '\n' ∉ a)
    (hr : '\r' ∉ a) : splitLines a = [a] := by
  unfold splitLines
  rw [splitLinesAux_no_newline hn]
  simp [List.isEmpty_iff, hne, stripCr_eq_self hr]

theorem splitWSAux_token {t : List Char} (ht : ∀ c ∈ t, nonWS c = true) :
    ∀ (rest acc : List Char),
      splitWSAux (t ++ rest) acc = splitWSAux rest (t.reverse ++ acc) := by
  induction t with
  | nil => intro rest acc; simp
  | cons x tl ih =>
    intro rest acc
    have hx : x.isWhitespace = false := by simpa [nonWS] using ht x (by simp)
    simp only [List.cons_append, splitWSAux, List.append_eq]
    rw [if_neg (by simp [hx]), ih (fun c hc => ht c (by simp [hc]))]
    simp

theorem splitWSAux_space {rest acc : List Char} :
    splitWSAux (' ' :: rest) acc =
      if acc.isEmpty then splitWSAux rest [] else acc.reverse :: splitWSAux rest [] := by
  simp [splitWSAux]

theorem splitWS_single_aux {t : List Char} (hne : t ≠ [])
    (ht : ∀ c ∈ t, nonWS c = true) : splitWSAux t [] = [t] := by
  have h := splitWSAux_token ht [] []
  simp only [List.append_nil] at h
  rw [h]
  simp [splitWSAux, List.isEmpty_iff, hne]

theorem splitWS_pair {t₁ t₂ : List Char} (h₁ : t₁ ≠ []) (h₂ : t₂ ≠ [])
    (ht₁ : ∀ c ∈ t₁, nonWS c = true) (ht₂ : ∀ c ∈ t₂, nonWS c = true) :
    splitWS (t₁ ++ ' ' :: t₂) = [t₁, t₂] := by
  unfold splitWS
  rw [splitWSAux_token ht₁, splitWSAux_space,
    if_neg (by simp [List.isEmpty_iff, h₁]), splitWS_single_aux h₂ ht₂]
  simp

theorem splitWS_three {t₁ t₂ t₃ : List Char} (h₁ : t₁ ≠ []) (h₂ : t₂ ≠ [])
    (h₃ : t₃ ≠ []) (ht₁ : ∀ c ∈ t₁, nonWS c = true) (ht₂ : ∀ c ∈ t₂, nonWS c = true)
    (ht₃ : ∀ c ∈ t₃, nonWS c = true) :
    splitWS (t₁ ++ ' ' :: t₂ ++ ' ' :: t₃) = [t₁, t₂, t₃] := by
  unfold splitWS
  rw [show t₁ ++ ' ' :: t₂ ++ ' ' :: t₃ = t₁ ++ ' ' :: (t₂ ++ ' ' :: t₃) by simp,
    splitWSAux_token ht₁, splitWSAux_space,
    if_neg (by simp [List.isEmpty_iff, h₁]),
    splitWSAux_token ht₂, splitWSAux_space,
    if_neg (by simp [List.isEmpty_iff, h₂]), splitWS_single_aux h₃ ht₃]
  simp

theorem splitCharAux_token {c : Char} {t : List Char} (ht : c ∉ t) :
    ∀ (rest acc : List Char),
      splitCharAux c (t ++ rest) acc = splitCharAux c rest (t.reverse ++ acc) := by
  induction t with
  | nil => intro rest acc; simp
  | cons x tl ih =>
    intro rest acc
    simp only [List.mem_cons, not_or] at ht
    simp only [List.cons_append, splitCharAux, List.append_eq]
    rw [if_neg (fun hc => ht.1 hc.symm), ih ht.2]
    simp

theorem splitCharAux_sep {c : Char} {rest acc : List Char} :
    splitCharAux c (c :: rest) acc = acc.reverse :: splitCharAux c rest [] := by
  simp [splitCharAux]

theorem splitChar_single {c : Char} {t : List Char} (ht : c ∉ t) :
    splitChar c t = [t] := by
  unfold splitChar
  have h := splitCharAux_token ht [] []
  simp only [List.append_nil] at h
  rw [h]
  simp [splitCharAux]

theorem splitChar_three {c : Char} {t₁ t₂ t₃ : List Char} (h₁ : c ∉ t₁)
    (h₂ : c ∉ t₂) (h₃ : c ∉ t₃) :
    splitChar c (t₁ ++ c :: t₂ ++ c :: t₃) = [t₁, t₂, t₃] := by
  unfold splitChar
  rw [show t₁ ++ c :: t₂ ++ c :: t₃ = t₁ ++ c :: (t₂ ++ c :: t₃) by simp,
    splitCharAux_token h₁, splitCharAux_sep, splitCharAux_token h₂, splitCharAux_sep]
  have h := splitCharAux_token h₃ [] []
  simp only [List.append_nil] at h
  rw [h]
  simp [splitCharAux]

theorem mem_of_head?_eq {l : List Char} {c : Char} (h : l.head? = some c) : c ∈ l := by
  cases l with
  | nil => simp at h
  | cons x tl =>
    simp only [List.head?_cons, Option.some_inj] at h
    simp [h]

theorem dropWhile_eq_self_of_head {p : Char → Bool} {l : List Char}
    (h : ∀ c, l.head? = some c → p c = false) : l.dropWhile p = l := by
  cases l with
  | nil => rfl
  | cons x tl => simp [List.dropWhile_cons, h x rfl]

theorem trimChars_eq_self {l : List Char}
    (hh : ∀ c, l.head? = some c → nonWS c = true)
    (hl : ∀ c, l.getLast? = some c → nonWS c = true) : trimChars l = l := by
  unfold trimChars
  have h1 : l.dropWhile Char.isWhitespace = l :=
    dropWhile_eq_self_of_head fun c hc => by simpa [nonWS] using hh c hc
  have h2 : l.reverse.dropWhile Char.isWhitespace = l.reverse :=
    dropWhile_eq_self_of_head fun c hc => by
      rw [List.head?_reverse] at hc
      simpa [nonWS] using hl c hc
  rw [h1, h2, List.reverse_reverse]

theorem trimChars_of_all_nonWS {l : List Char} (h : ∀ c ∈ l, nonWS c = true) :
    trimChars l = l :=
  trimChars_eq_self (fun c hc => h c (mem_of_head?_eq hc))
    (fun c hc => h c (mem_of_getLast?_eq hc))

theorem trimChars_snoc_space {l : List Char} (hne : l ≠ [])
    (hh : ∀ c, l.head? = some c → nonWS c = true)
    (hl : ∀ c, l.getLast? = some c → nonWS c = true) :
    trimChars (l ++ [' ']) = l := by
  unfold trimChars
  have hd : (l ++ [' ']).dropWhile Char.isWhitespace = l ++ [' '] := by
    refine dropWhile_eq_self_of_head fun c hc => ?_
    cases l with
    | nil => exact absurd rfl hne
    | cons x tl =>
      simp only [List.cons_append, List.head?_cons, Option.some_inj] at hc
      rw [← hc]
      simpa [nonWS] using hh x rfl
  have h2 : l.reverse.dropWhile Char.isWhitespace = l.reverse :=
    dropWhile_eq_self_of_head fun c hc => by
      rw [List.head?_reverse] at hc
      simpa [nonWS] using hl c hc
  rw [hd, List.reverse_append]
  simp only [List.reverse_singleton, List.singleton_append, List.dropWhile_cons,
    if_pos (by decide : (' ' : Char).isWhitespace = true)]
  rw [h2, List.reverse_reverse]

theorem trimChars_cons_space {l : List Char}
    (hh : ∀ c, l.head? = some c → nonWS c = true)
    (hl : ∀ c, l.getLast? = some c → nonWS c = true) :
    trimChars (' ' :: l) = l := by
  unfold trimChars
  have h1 : l.dropWhile Char.isWhitespace = l :=
    dropWhile_eq_self_of_head fun c hc => by simpa [nonWS] using hh c hc
  have h2 : l.reverse.dropWhile Char.isWhitespace = l.reverse :=
    dropWhile_eq_self_of_head fun c hc => by
      rw [List.head?_reverse] at hc
      simpa [nonWS] using hl c hc
  simp only [List.dropWhile_cons, if_pos (by decide : (' ' : Char).isWhitespace = true)]
  rw [h1, h2, List.reverse_reverse]

/-! ## Cargo parser lemmas -/

theorem space_isWhitespace : (' ' : Char).isWhitespace = true := by decide

theorem v_isWhitespace : ('v' : Char).isWhitespace = false := by decide

namespace CargoManager

theorem crateLine_header {name version : List Char} (hn : name ≠ [])
    (hnw : ∀ c ∈ name, nonWS c = true) (hv : version ≠ [])
    (hvd : ∀ c ∈ version, (c.isDigit || c = '.') = true) :
    crateLine (name ++ ' ' :: 'v' :: (version ++ [':'])) = some (name, version) := by
  have h1 : List.takeWhile nonWS (name ++ ' ' :: 'v' :: (version ++ [':'])) = name :=
    takeWhile_append_neg hnw (by decide)
  have h2 : List.dropWhile nonWS (name ++ ' ' :: 'v' :: (version ++ [':'])) =
      ' ' :: 'v' :: (version ++ [':']) :=
    dropWhile_append_neg hnw (by decide)
  have h3 : List.takeWhile (fun c => c.isDigit || c = '.') (version ++ [':']) = version :=
    takeWhile_append_neg hvd (by decide)
  have h4 : List.dropWhile (fun c => c.isDigit || c = '.') (version ++ [':']) = [':'] :=
    dropWhile_append_neg hvd (by decide)
  simp [crateLine, h1, h2, h3, h4, space_isWhitespace, v_isWhitespace,
    List.isEmpty_iff, hn, hv]

theorem crateLine_local_header {name version p : List Char}
    (hnw : ∀ c ∈ name, nonWS c = true)
    (hvd : ∀ c ∈ version, (c.isDigit || c = '.') = true) :
    crateLine (name ++ ' ' :: 'v' :: (version ++ ' ' :: '(' :: (p ++ [')', ':']))) =
      none := by
  have h1 : List.takeWhile nonWS
      (name ++ ' ' :: 'v' :: (version ++ ' ' :: '(' :: (p ++ [')', ':']))) = name :=
    takeWhile_append_neg hnw (by decide)
  have h2 : List.dropWhile nonWS
      (name ++ ' ' :: 'v' :: (version ++ ' ' :: '(' :: (p ++ [')', ':']))) =
      ' ' :: 'v' :: (version ++ ' ' :: '(' :: (p ++ [')', ':'])) :=
    dropWhile_append_neg hnw (by decide)
  have h3 : List.takeWhile (fun c => c.isDigit || c = '.')
      (version ++ ' ' :: '(' :: (p ++ [')', ':'])) = version :=
    takeWhile_append_neg hvd (by decide)
  have h4 : List.dropWhile (fun c => c.isDigit || c = '.')
      (version ++ ' ' :: '(' :: (p ++ [')', ':'])) =
      ' ' :: '(' :: (p ++ [')', ':']) :=
    dropWhile_append_neg hvd (by decide)
  simp [crateLine, h1, h2, h3, h4, space_isWhitespace, v_isWhitespace,
    List.isEmpty_iff]

theorem crateLine_none_of_head_ws {l : List Char}
    (h : ∀ c, l.head? = some c → c.isWhitespace = true) : crateLine l = none := by
  cases l with
  | nil => rfl
  | cons x tl =>
    have hx : nonWS x = false := by simp [nonWS, h x rfl]
    have h1 : List.takeWhile nonWS (x :: tl) = [] := by
      rw [List.takeWhile_cons_of_neg (by simp [hx])]
    simp [crateLine, h1]

theorem binLine_none_of_head {l : List Char}
    (h : ∀ c, l.head? = some c → nonWS c = true) : binLine l = none := by
  cases l with
  | nil => rfl
  | cons x tl =>
    have hx : x.isWhitespace = false := by simpa [nonWS] using h x rfl
    have h1 : List.takeWhile Char.isWhitespace (x :: tl) = [] := by
      rw [List.takeWhile_cons_of_neg (by simp [hx])]
    simp [binLine, h1]

theorem binLine_render {b : List Char} (hb : b ≠ []) (hbw : ∀ c ∈ b, nonWS c = true) :
    binLine (binLineChars b) = some b := by
  have h1 : List.dropWhile Char.isWhitespace b = b :=
    dropWhile_eq_self_of_head fun c hc => by
      simpa [nonWS] using hbw c (mem_of_head?_eq hc)
  have h2 : List.takeWhile nonWS b = b := takeWhile_all hbw
  simp [binLine, binLineChars, space_isWhitespace, h1, h2, List.isEmpty_iff, hb]

theorem crateLine_binLineChars {b : List Char} : crateLine (binLineChars b) = none :=
  crateLine_none_of_head_ws fun c hc => by
    simp only [binLineChars, List.head?_cons, Option.some_inj] at hc
    rw [← hc]; decide

end CargoManager

theorem not_mem_of_all_nonWS {l : List Char} (h : ∀ c ∈ l, nonWS c = true) :
    '\n' ∉ l ∧ '\r' ∉ l :=
  ⟨fun hm => absurd (h _ hm) (by decide), fun hm => absurd (h _ hm) (by decide)⟩

theorem not_mem_of_all_digitDot {l : List Char}
    (h : ∀ c ∈ l, (c.isDigit || c = '.') = true) : '\n' ∉ l ∧ '\r' ∉ l :=
  not_mem_of_all_nonWS fun c hc => digitDot_nonWS (h c hc)

theorem no_nl_cr_append {a b : List Char} (ha : '\n' ∉ a ∧ '\r' ∉ a)
    (hb : '\n' ∉ b ∧ '\r' ∉ b) : '\n' ∉ a ++ b ∧ '\r' ∉ a ++ b := by
  simp [List.mem_append, not_or, ha.1, ha.2, hb.1, hb.2]

theorem no_nl_cr_cons {c : Char} {b : List Char} (h1 : c ≠ '\n') (h2 : c ≠ '\r')
    (hb : '\n' ∉ b ∧ '\r' ∉ b) : '\n' ∉ c :: b ∧ '\r' ∉ c :: b := by
  simp [List.mem_cons, not_or, hb.1, hb.2, Ne.symm h1, Ne.symm h2]

theorem head?_append_of_ne_nil {l₁ l₂ : List Char} (h : l₁ ≠ []) :
    (l₁ ++ l₂).head? = l₁.head? := by
  cases l₁ with
  | nil => exact absurd rfl h
  | cons x tl => simp

namespace CargoManager

theorem entryLines_no_newline {e : Entry} (he : wfEntry e) :
    ∀ l ∈ entryLines e, '\n' ∉ l ∧ '\r' ∉ l := by
  obtain ⟨⟨hn, hnw⟩, ⟨hv, hvd⟩, hlp, hbins⟩ := he
  intro l hli
  simp only [entryLines, List.mem_cons, List.mem_map] at hli
  rcases hli with rfl | ⟨b, hb, rfl⟩
  · cases hl : e.localPath with
    | none =>
      have hform : headerChars e = e.name ++ (' ' :: 'v' :: (e.version ++ [':'])) := by
        simp [headerChars, hl]
      rw [hform]
      exact no_nl_cr_append (not_mem_of_all_nonWS hnw)
        (no_nl_cr_cons (by decide) (by decide)
          (no_nl_cr_cons (by decide) (by decide)
            (no_nl_cr_append (not_mem_of_all_digitDot hvd) (by decide))))
    | some p =>
      have hform : headerChars e =
          e.name ++ (' ' :: 'v' :: (e.version ++ ' ' :: '(' :: (p ++ [')', ':']))) := by
        simp [headerChars, hl]
      rw [hform]
      exact no_nl_cr_append (not_mem_of_all_nonWS hnw)
        (no_nl_cr_cons (by decide) (by decide)
          (no_nl_cr_cons (by decide) (by decide)
            (no_nl_cr_append (not_mem_of_all_digitDot hvd)
              (no_nl_cr_cons (by decide) (by decide)
                (no_nl_cr_cons (by decide) (by decide)
                  (no_nl_cr_append (hlp p hl) (by decide)))))))
  · have hbw := hbins b hb
    simp only [binLineChars]
    exact no_nl_cr_cons (by decide) (by decide)
      (no_nl_cr_cons (by decide) (by decide)
        (no_nl_cr_cons (by decide) (by decide)
          (no_nl_cr_cons (by decide) (by decide)
            (not_mem_of_all_nonWS hbw.2))))

theorem parseLoop_bins {bins : List (List Char)}
    (hb : ∀ b ∈ bins, b ≠ [] ∧ ∀ c ∈ b, nonWS c = true) :
    ∀ (rest : List (List Char)) (res : List InstalledCrate) (cur : Option InstalledCrate),
      parseLoop (bins.map binLineChars ++ rest) res cur =
        parseLoop rest res
          (cur.map fun c => { c with bins := c.bins ++ bins.map List.asString }) := by
  induction bins with
  | nil =>
    intro rest res cur
    cases cur <;> simp
  | cons b bs ih =>
    intro rest res cur
    have hb1 := hb b (by simp)
    simp only [List.map_cons, List.cons_append, parseLoop,
      crateLine_binLineChars, binLine_render hb1.1 hb1.2, List.append_eq]
    rw [ih (fun x hx => hb x (by simp [hx]))]
    cases cur <;> simp

theorem parseLoop_entry_none {e : Entry} (he : wfEntry e) (hl : e.localPath = none) :
    ∀ (rest : List (List Char)) (res : List InstalledCrate) (cur : Option InstalledCrate),
      parseLoop (entryLines e ++ rest) res cur =
        parseLoop rest (res ++ cur.toList)
          (some ⟨e.name.asString, e.version.asString, e.bins.map List.asString⟩) := by
  intro rest res cur
  obtain ⟨⟨hn, hnw⟩, ⟨hv, hvd⟩, hlp, hbins⟩ := he
  have hh : headerChars e = e.name ++ ' ' :: 'v' :: (e.version ++ [':']) := by
    simp [headerChars, hl]
  simp only [entryLines, List.cons_append, parseLoop, hh,
    crateLine_header hn hnw hv hvd, List.append_eq]
  rw [parseLoop_bins hbins]
  simp

theorem parseLoop_entry_local {e : Entry} {p : List Char} (he : wfEntry e)
    (hl : e.localPath = some p) :
    ∀ (rest : List (List Char)) (res : List InstalledCrate) (cur : Option InstalledCrate),
      parseLoop (entryLines e ++ rest) res cur =
        parseLoop rest res
          (cur.map fun c => { c with bins := c.bins ++ e.bins.map List.asString }) := by
  intro rest res cur
  obtain ⟨⟨hn, hnw⟩, ⟨hv, hvd⟩, hlp, hbins⟩ := he
  have hh : headerChars e =
      e.name ++ ' ' :: 'v' :: (e.version ++ ' ' :: '(' :: (p ++ [')', ':'])) := by
    simp [headerChars, hl]
  have hcl : crateLine (headerChars e) = none := by
    rw [hh]; exact crateLine_local_header hnw hvd
  have hbl : binLine (headerChars e) = none := by
    refine binLine_none_of_head fun c hc => ?_
    rw [hh, head?_append_of_ne_nil hn] at hc
    exact hnw c (mem_of_head?_eq hc)
  simp only [entryLines, List.cons_append, parseLoop, hcl, hbl, List.append_eq]
  rw [parseLoop_bins hbins]

theorem parseLoop_flat {es : List Entry} (hes : ∀ e ∈ es, wfEntry e) :
    ∀ (res : List InstalledCrate) (cur : Option InstalledCrate),
      parseLoop (es.flatMap entryLines) res cur = res ++ expectedLoop cur es := by
  induction es with
  | nil => intro res cur; simp [parseLoop, expectedLoop]
  | cons e es ih =>
    intro res cur
    rw [List.flatMap_cons]
    cases hl : e.localPath with
    | none =>
      rw [parseLoop_entry_none (hes e (by simp)) hl,
        ih (fun x hx => hes x (by simp [hx]))]
      simp [expectedLoop, hl, List.append_assoc]
    | some p =>
      rw [parseLoop_entry_local (hes e (by simp)) hl,
        ih (fun x hx => hes x (by simp [hx]))]
      simp [expectedLoop, hl]

theorem parse_render {es : List Entry} (hes : ∀ e ∈ es, wfEntry e) :
    parse_cargo_install_list (renderListing es) = expectedRecords es := by
  unfold parse_cargo_install_list renderListing expectedRecords
  rw [List.asString]
  show parseLoop (splitLines ((es.flatMap entryLines).flatMap fun l => l ++ ['\n'])) [] none = _
  rw [splitLines_flat (fun l hl => by
    rw [List.mem_flatMap] at hl
    obtain ⟨e, he, hle⟩ := hl
    exact entryLines_no_newline (hes e he) l hle)]
  rw [parseLoop_flat hes]
  simp

end CargoManager

theorem splitFirst_eq_some {c : Char} {l a b : List Char}
    (h : splitFirst c l = some (a, b)) : l = a ++ c :: b := by
  induction l generalizing a with
  | nil => simp [splitFirst] at h
  | cons x tl ih =>
    by_cases hx : x = c
    · subst hx
      have h' : ([] : List Char) = a ∧ tl = b := by
        simpa [splitFirst] using h
      rw [← h'.1, ← h'.2]
      simp
    · simp only [splitFirst, if_neg hx, Option.map_eq_some'] at h
      obtain ⟨⟨a', b'⟩, hs, he⟩ := h
      simp only [Prod.mk.injEq] at he
      rw [he.2] at hs
      rw [← he.1, ih hs]
      simp

theorem mem_of_mem_trimChars {x : Char} {l : List Char} (h : x ∈ trimChars l) :
    x ∈ l := by
  unfold trimChars at h
  rw [List.mem_reverse] at h
  have h1 := (List.dropWhile_sublist (p := Char.isWhitespace)
    (l := (l.dropWhile Char.isWhitespace).reverse)).mem h
  rw [List.mem_reverse] at h1
  exact (List.dropWhile_sublist (p := Char.isWhitespace) (l := l)).mem h1

theorem rlastIdx_eq_none {c : Char} {l : List Char} (h : c ∉ l) :
    rlastIdx c l = none := by
  unfold rlastIdx
  rw [splitFirst_eq_none (by simpa using h)]

namespace HomebrewManager

theorem parse_name_and_version_render {name cur : List Char} (hn : name ≠ [])
    (hnh : ∀ c, name.head? = some c → nonWS c = true)
    (hnl : ∀ c, name.getLast? = some c → nonWS c = true)
    (hch : ∀ c, cur.head? = some c → nonWS c = true)
    (hcl : ∀ c, cur.getLast? = some c → nonWS c = true)
    (hcp : '(' ∉ cur) :
    parse_name_and_version (name ++ ' ' :: '(' :: (cur ++ [')'])) =
      some (name, cur) := by
  set s := name ++ ' ' :: '(' :: (cur ++ [')']) with hs
  have hsrev : s.reverse = (')' :: cur.reverse) ++ '(' :: (' ' :: name.reverse) := by
    simp [hs]
  have hlen : s.length = name.length + cur.length + 3 := by
    simp [hs]; omega
  have hop : rlastIdx '(' s = some (name.length + 1) := by
    unfold rlastIdx
    rw [hsrev, splitFirst_append (by
      simp only [List.mem_cons, List.mem_reverse, not_or]
      exact ⟨by decide, hcp⟩)]
    simp only [List.length_cons, List.length_reverse, Option.some_inj, hlen]
    omega
  have hcl2 : rlastIdx ')' s = some (name.length + cur.length + 2) := by
    unfold rlastIdx
    rw [hsrev, show (')' :: cur.reverse) ++ '(' :: (' ' :: name.reverse) =
      [] ++ ')' :: (cur.reverse ++ '(' :: (' ' :: name.reverse)) by simp,
      splitFirst_append (by simp)]
    simp only [List.length_nil, Option.some_inj, hlen]
    omega
  have htake : s.take (name.length + 1) = name ++ [' '] := by
    rw [show s = (name ++ [' ']) ++ ('(' :: (cur ++ [')'])) by simp [hs],
      show name.length + 1 = (name ++ [' ']).length by simp, List.take_left]
  have hdrop : s.drop (name.length + 2) = cur ++ [')'] := by
    rw [show s = (name ++ [' ', '(']) ++ (cur ++ [')']) by simp [hs],
      show name.length + 2 = (name ++ [' ', '(']).length by simp, List.drop_left]
  have hge : ¬(name.length + 1 ≥ name.length + cur.length + 2) := by omega
  unfold parse_name_and_version
  rw [hop, hcl2]
  simp only [if_neg hge]
  rw [show name.length + 1 + 1 = name.length + 2 by omega, hdrop,
    show name.length + cur.length + 2 - (name.length + 1) - 1 = cur.length by omega,
    List.take_left, htake, trimChars_snoc_space hn hnh hnl,
    trimChars_eq_self hch hcl]

end HomebrewManager

theorem takeWhile_append_head {p : Char → Bool} {l₁ l₂ : List Char}
    (h₁ : ∀ c ∈ l₁, p c = true) (h₂ : ∀ c, l₂.head? = some c → p c = false) :
    (l₁ ++ l₂).takeWhile p = l₁ := by
  rw [List.takeWhile_append_of_pos h₁]
  cases l₂ with
  | nil => simp
  | cons x tl =>
    have hx : ¬p x = true := by simp [h₂ x rfl]
    simp [List.takeWhile_cons_of_neg hx]

theorem dropWhile_append_head {p : Char → Bool} {l₁ l₂ : List Char}
    (h₁ : ∀ c ∈ l₁, p c = true) (h₂ : ∀ c, l₂.head? = some c → p c = false) :
    (l₁ ++ l₂).dropWhile p = l₂ := by
  rw [List.dropWhile_append_of_pos h₁]
  cases l₂ with
  | nil => rfl
  | cons x tl =>
    have hx : ¬p x = true := by simp [h₂ x rfl]
    simp [List.dropWhile_cons_of_neg hx]

theorem getLast?_append_of_ne_nil {l₁ l₂ : List Char} (h : l₂ ≠ []) :
    (l₁ ++ l₂).getLast? = l₂.getLast? := by
  rw [List.getLast?_append]
  cases hl : l₂.getLast? with
  | none =>
    rw [List.getLast?_eq_none_iff] at hl
    exact absurd hl h
  | some c => rfl

theorem rsplitOnce_append {c : Char} {l₁ l₂ : List Char} (h : c ∉ l₂) :
    rsplitOnce c (l₁ ++ c :: l₂) = some (l₁, l₂) := by
  unfold rsplitOnce
  rw [show (l₁ ++ c :: l₂).reverse = l₂.reverse ++ c :: l₁.reverse by simp,
    splitFirst_append (by simpa using h)]
  simp

namespace GoManager

theorem scanFirst_append_none {f : List Char → Option (List Char)}
    {pre rest : List Char}
    (h : ∀ s, s.IsSuffix pre → s ≠ [] → f (s ++ rest) = none) :
    scanFirst f (pre ++ rest) = scanFirst f rest := by
  induction pre with
  | nil => simp
  | cons x tl ih =>
    have h0 : f ((x :: tl) ++ rest) = none := h (x :: tl) List.suffix_rfl (by simp)
    simp only [List.cons_append, scanFirst, List.append_eq] at *
    rw [h0]
    exact ih fun s hs hne => h s (hs.trans (List.suffix_cons x tl)) hne

theorem matchPathAt_render {ws module post : List Char} (hws : ws ≠ [])
    (hwsall : ∀ c ∈ ws, c.isWhitespace = true) (hm : module ≠ [])
    (hmall : ∀ c ∈ module, nonWS c = true)
    (hpost : ∀ c, post.head? = some c → c.isWhitespace = true) :
    matchPathAt ('p' :: 'a' :: 't' :: 'h' :: (ws ++ (module ++ post))) =
      some module := by
  have hmh : ∀ c, (module ++ post).head? = some c → c.isWhitespace = false := by
    intro c hc
    rw [head?_append_of_ne_nil hm] at hc
    simpa [nonWS] using hmall c (mem_of_head?_eq hc)
  have h1 : (ws ++ (module ++ post)).takeWhile Char.isWhitespace = ws :=
    takeWhile_append_head hwsall hmh
  have h2 : (ws ++ (module ++ post)).dropWhile Char.isWhitespace = module ++ post :=
    dropWhile_append_head hwsall hmh
  have h3 : (module ++ post).takeWhile nonWS = module :=
    takeWhile_append_head hmall fun c hc => by simp [nonWS, hpost c hc]
  simp [matchPathAt, h1, h2, h3, List.isEmpty_iff, hws, hm]

theorem matchModAt_render {ws1 tok1 ws2 tok2 post : List Char}
    (hw1 : ws1 ≠ []) (hw1a : ∀ c ∈ ws1, c.isWhitespace = true)
    (ht1 : tok1 ≠ []) (ht1a : ∀ c ∈ tok1, nonWS c = true)
    (hw2 : ws2 ≠ []) (hw2a : ∀ c ∈ ws2, c.isWhitespace = true)
    (ht2 : tok2 ≠ []) (ht2a : ∀ c ∈ tok2, nonWS c = true)
    (hpost : ∀ c, post.head? = some c → c.isWhitespace = true)
    (hsv : semverPrefix tok2 = true) :
    matchModAt ('m' :: 'o' :: 'd' :: (ws1 ++ (tok1 ++ (ws2 ++ (tok2 ++ post))))) =
      some tok2 := by
  have hth : ∀ c, (tok1 ++ (ws2 ++ (tok2 ++ post))).head? = some c →
      c.isWhitespace = false := by
    intro c hc
    rw [head?_append_of_ne_nil ht1] at hc
    simpa [nonWS] using ht1a c (mem_of_head?_eq hc)
  have h1 : (ws1 ++ (tok1 ++ (ws2 ++ (tok2 ++ post)))).takeWhile Char.isWhitespace =
      ws1 := takeWhile_append_head hw1a hth
  have h2 : (ws1 ++ (tok1 ++ (ws2 ++ (tok2 ++ post)))).dropWhile Char.isWhitespace =
      tok1 ++ (ws2 ++ (tok2 ++ post)) := dropWhile_append_head hw1a hth
  have hwh : ∀ c, (ws2 ++ (tok2 ++ post)).head? = some c → nonWS c = false := by
    intro c hc
    rw [head?_append_of_ne_nil hw2] at hc
    simp [nonWS, hw2a c (mem_of_head?_eq hc)]
  have h3 : (tok1 ++ (ws2 ++ (tok2 ++ post))).takeWhile nonWS = tok1 :=
    takeWhile_append_head ht1a hwh
  have h4 : (tok1 ++ (ws2 ++ (tok2 ++ post))).dropWhile nonWS =
      ws2 ++ (tok2 ++ post) := dropWhile_append_head ht1a hwh
  have hth2 : ∀ c, (tok2 ++ post).head? = some c → c.isWhitespace = false := by
    intro c hc
    rw [head?_append_of_ne_nil ht2] at hc
    simpa [nonWS] using ht2a c (mem_of_head?_eq hc)
  have h5 : (ws2 ++ (tok2 ++ post)).takeWhile Char.isWhitespace = ws2 :=
    takeWhile_append_head hw2a hth2
  have h6 : (ws2 ++ (tok2 ++ post)).dropWhile Char.isWhitespace = tok2 ++ post :=
    dropWhile_append_head hw2a hth2
  have h7 : (tok2 ++ post).takeWhile nonWS = tok2 :=
    takeWhile_append_head ht2a fun c hc => by simp [nonWS, hpost c hc]
  simp [matchModAt, h1, h2, h3, h4, h5, h6, h7, List.isEmpty_iff, hw1, ht1, hw2,
    ht2, hsv]

end GoManager

/-! ## Claim theorems -/

/-- C7: for the DNF backend, whenever the fast line-count pipeline exits
non-zero, `count_installed` returns exactly the mapped length of
`list_installed`'s result; and the trait-level default `count_installed`
equals the mapped length of `list_installed`'s result. -/
theorem claim_C7 :
    (∀ (formatDate : Int → Option String) (qaOut : Option String),
      DnfManager.count_installed formatDate none qaOut =
        (DnfManager.list_installed formatDate qaOut).map List.length) ∧
    (∀ listResult : Except CoreError (List PackageInfo),
      defaultCountInstalled listResult = listResult.map List.length) := by
  refine ⟨fun _ _ => rfl, fun lr => ?_⟩
  cases lr <;> rfl

/-- C10: for the Homebrew backend, a failing `brew list` makes
`count_installed` return success with 0 (not an error, and independent of
any listing), while `list_installed` can still succeed with a non-empty
collection; a successful `brew list` yields the number of non-empty
lines. -/
theorem claim_C10 :
    HomebrewManager.count_installed none = .ok 0 ∧
    (∀ e : CoreError, HomebrewManager.count_installed none ≠ .error e) ∧
    HomebrewManager.count_installed (some "git\nwget\n\n") = .ok 2 ∧
    HomebrewManager.list_installed_fallback (some "git 2.43.0\n") =
      .ok [⟨"git", "2.43.0", .Homebrew, none, none, none, none⟩] := by
  refine ⟨rfl, fun e h => by simp [HomebrewManager.count_installed] at h, ?_, ?_⟩
  · decide
  · decide

/-- C8 counterexample: with a configured Go bin-dir override
`/custom/bin` and `GOBIN=/gobin`, `uninstall_packages` targets
`/gobin/tool` (failing when only `/custom/bin/tool` exists), while the
claimed resolution via `Config::get_go_bin_dir` would target
`/custom/bin/tool`. -/
theorem claim_C8_counterexample :
    GoManager.uninstall_packages (some "/gobin") none none
        ["/custom/bin/tool"] ["tool"] =
      .error (.UnknownError
        "Failed to remove Go binary tool: No such file or directory (os error 2)") ∧
    Config.get_go_bin_dir (some "/custom/bin") (some "/gobin") none none =
      "/custom/bin" ∧
    Config.get_go_bin_dir (some "/custom/bin") (some "/gobin") none none ++ "/" ++
      GoManager.lastSegment "tool" = "/custom/bin/tool" := by
  refine ⟨by decide, rfl, by decide⟩

/-- C8 amended: `uninstall_packages` resolves the bin directory as
`GOBIN`, else `GOPATH/bin`, else `$HOME/go/bin` (empty `HOME` giving
`/go/bin`), ignoring the configured override; for each name it removes
`<dir>/<last path segment>` and a failed removal yields an error. -/
theorem claim_C8_amended :
    (∀ (g : String) (gp h : Option String),
      GoManager.uninstallBinDir (some g) gp h = g) ∧
    (∀ (p : String) (h : Option String),
      GoManager.uninstallBinDir none (some p) h = p ++ "/bin") ∧
    (∀ h : Option String,
      GoManager.uninstallBinDir none none h = h.getD "" ++ "/go/bin") ∧
    (∀ (gobin gopath home : Option String) (files : List String) (name : String),
      GoManager.uninstall_packages gobin gopath home files [name] =
        if GoManager.uninstallBinDir gobin gopath home ++ "/" ++
            GoManager.lastSegment name ∈ files then
          .ok (files.erase (GoManager.uninstallBinDir gobin gopath home ++ "/" ++
            GoManager.lastSegment name))
        else
          .error (.UnknownError ("Failed to remove Go binary " ++
            GoManager.lastSegment name ++
            ": No such file or directory (os error 2)"))) := by
  refine ⟨fun _ _ _ => rfl, fun _ _ => rfl, fun _ => rfl, fun gobin gopath home files name => ?_⟩
  by_cases hmem : GoManager.uninstallBinDir gobin gopath home ++ "/" ++
      GoManager.lastSegment name ∈ files
  · simp [GoManager.uninstall_packages, hmem]
  · simp [GoManager.uninstall_packages, hmem]

/-- C6: every backend's `get_current_version` returns an error — never a
successful empty string — when the name is not installed: a
`ParseError`-flavored "not found" for the system (DNF) backend, an
`UnknownError` for Cargo, Flatpak, Homebrew and Go. -/
theorem claim_C6 :
    (∀ name : String,
      DnfManager.get_current_version none name =
        .error (.ParseError ("Package " ++ name ++ " not found"))) ∧
    (∀ stdout name : String,
      name ∉ (CargoManager.parse_cargo_install_list stdout).map InstalledCrate.name →
      CargoManager.get_current_version stdout name =
        .error (.UnknownError ("Package " ++ name ++ " not installed"))) ∧
    (∀ (versionOut : Option String) (name : String),
      FlatpakManager.get_current_version versionOut none name =
        .error (.UnknownError ("Package " ++ name ++ " not found"))) ∧
    (∀ name : String,
      HomebrewManager.get_current_version none name =
        .error (.UnknownError ("brew list --versions " ++ name ++ " failed"))) ∧
    (∀ out name : String, trimChars out.data = [] →
      HomebrewManager.get_current_version (some out) name =
        .error (.UnknownError ("Package " ++ name ++ " not found"))) ∧
    (∀ (binaries : List GoManager.InstalledBinary)
      (getInfo : String → Option String) (name : String),
      (∀ b ∈ binaries, b.name ≠ name ∧
        ∀ info, getInfo b.path = some info →
          GoManager.extract_module_path info ≠ some name) →
      GoManager.get_current_version binaries getInfo name =
        .error (.UnknownError ("Package " ++ name ++ " not installed"))) := by
  refine ⟨fun _ => rfl, ?_, fun _ _ => rfl, fun _ => rfl, ?_, ?_⟩
  · intro stdout name hmem
    have h : (CargoManager.parse_cargo_install_list stdout).find?
        (fun c => c.name = name) = none := by
      rw [List.find?_eq_none]
      intro c hc
      simp only [decide_eq_true_eq]
      exact fun he => hmem (he ▸ List.mem_map_of_mem InstalledCrate.name hc)
    unfold CargoManager.get_current_version
    rw [h]
  · intro out name ht
    simp [HomebrewManager.get_current_version, ht]
  · intro binaries getInfo name h
    have hfs : binaries.findSome? (fun binary =>
        match getInfo binary.path with
        | none => none
        | some info =>
          match GoManager.extract_module_path info with
          | none => none
          | some module =>
            if module = name ∨ binary.name = name then
              GoManager.extract_version info
            else none) = none := by
      induction binaries with
      | nil => rfl
      | cons b bs ih =>
        have hb := h b (by simp)
        rw [List.findSome?_cons]
        have hnone : (match getInfo b.path with
            | none => none
            | some info =>
              match GoManager.extract_module_path info with
              | none => none
              | some module =>
                if module = name ∨ b.name = name then
                  GoManager.extract_version info
                else none) = (none : Option String) := by
          cases hgi : getInfo b.path with
          | none => rfl
          | some info =>
            cases hmp : GoManager.extract_module_path info with
            | none => simp [hmp]
            | some module =>
              have hne : ¬(module = name ∨ b.name = name) := by
                rintro (rfl | hbn)
                · exact hb.2 info hgi hmp
                · exact hb.1 hbn
              simp [hmp, hne]
        rw [hnone]
        exact ih fun x hx => h x (by simp [hx])
    unfold GoManager.get_current_version
    rw [hfs]

/-- C6 witness: concrete not-installed lookups on every backend. -/
theorem claim_C6_witness :
    DnfManager.get_current_version none "bash" =
      .error (.ParseError "Package bash not found") ∧
    CargoManager.get_current_version "ripgrep v14.1.0:\n    rg\n" "serde" =
      .error (.UnknownError "Package serde not installed") ∧
    FlatpakManager.get_current_version (some "1.0") none "org.x.App" =
      .error (.UnknownError "Package org.x.App not found") ∧
    HomebrewManager.get_current_version none "git" =
      .error (.UnknownError "brew list --versions git failed") ∧
    HomebrewManager.get_current_version (some "  \n") "git" =
      .error (.UnknownError "Package git not found") ∧
    GoManager.get_current_version [⟨"tool", "/go/bin/tool"⟩]
      (fun _ => some "path\tgithub.com/a/tool\nmod\tgithub.com/a/tool\tv1.0.0\n")
      "gopls" =
      .error (.UnknownError "Package gopls not installed") := by
  refine ⟨claim_C6.1 "bash", claim_C6.2.1 _ _ (by decide), claim_C6.2.2.1 _ _,
    claim_C6.2.2.2.1 "git", claim_C6.2.2.2.2.1 _ _ (by decide),
    claim_C6.2.2.2.2.2 _ _ _ ?_⟩
  intro b hb
  simp only [List.mem_singleton] at hb
  subst hb
  refine ⟨by decide, fun info hinfo => ?_⟩
  have hi : info = "path\tgithub.com/a/tool\nmod\tgithub.com/a/tool\tv1.0.0\n" := by
    simpa using hinfo.symm
  subst hi
  decide

/-- C1 counterexample: the Flatpak backend reports an update whose current
and new versions are identical (the pattern shown in the source's own
doc-comment example, `org.freedesktop.Platform  24.08  24.08`). -/
theorem claim_C1_counterexample :
    ∃ u ∈ FlatpakManager.list_updates "org.freedesktop.Platform\t24.08\t24.08\n"
      "Application ID Version Branch\norg.freedesktop.Platform 24.08 24.08\n",
      u.current_version = u.new_version := by
  decide

/-- C1 amended: only the Cargo and Go backends filter out updates whose
current and new versions are identical; the Flatpak, DNF and Homebrew
backends do not, and can return a `PackageUpdate` with
`current_version = new_version`. -/
theorem claim_C1_amended :
    (∀ (stdout : String) (getLatest : String → Option String)
      (u : PackageUpdate), u ∈ CargoManager.list_updates stdout getLatest →
      u.current_version ≠ u.new_version) ∧
    (∀ (binaries : List GoManager.InstalledBinary)
      (getInfo getLatest : String → Option String) (u : PackageUpdate),
      u ∈ GoManager.list_updates binaries getInfo getLatest →
      u.current_version ≠ u.new_version) ∧
    (∃ u ∈ FlatpakManager.list_updates "a.b.App\t1.0\tstable\n"
      "Application ID Version Branch\na.b.App 1.0 stable\n",
      u.current_version = u.new_version) ∧
    (∃ u ∈ DnfManager.list_updates "pkg.x86_64 1.0-1 updates\n"
      (fun _ => some "1.0-1"), u.current_version = u.new_version) ∧
    (∃ u ∈ HomebrewManager.list_updates "git (2.43.0) < 2.43.0\n",
      u.current_version = u.new_version) := by
  refine ⟨?_, ?_, by decide, by decide, by decide⟩
  · intro stdout getLatest u hu
    unfold CargoManager.list_updates at hu
    rw [List.mem_flatMap] at hu
    obtain ⟨inst, _, hu⟩ := hu
    cases hgl : getLatest inst.name with
    | none => simp [hgl] at hu
    | some latest =>
      simp only [hgl] at hu
      by_cases hne : latest = inst.version
      · simp [hne] at hu
      · simp only [ne_eq, hne, not_false_iff, if_true, List.mem_singleton] at hu
        subst hu
        simp only [ne_eq]
        exact fun he => hne he.symm
  · intro binaries getInfo getLatest u hu
    unfold GoManager.list_updates at hu
    rw [List.mem_flatMap] at hu
    obtain ⟨binary, _, hu⟩ := hu
    cases hgi : getInfo binary.path with
    | none => simp [hgi] at hu
    | some info =>
      simp only [hgi] at hu
      cases hmp : GoManager.extract_module_path info with
      | none => simp [hmp] at hu
      | some module =>
        simp only [hmp] at hu
        cases hgl : getLatest module with
        | none => simp [hgl] at hu
        | some latest =>
          simp only [hgl] at hu
          cases hev : GoManager.extract_version info with
          | none => simp [hev] at hu
          | some localVersion =>
            simp only [hev] at hu
            by_cases hc1 : localVersion = latest
            · simp [hc1] at hu
            · by_cases hc2 : latest.isEmpty
              · simp [hc1, hc2] at hu
              · simp only [ne_eq, hc1, not_false_iff, hc2, Bool.not_eq_true,
                  true_and, and_true, if_true, List.mem_singleton,
                  Bool.not_eq_true'] at hu
                have hu' : u = ⟨binary.name, localVersion, latest⟩ := by
                  by_cases h' : latest.isEmpty = false
                  · simpa [h'] using hu
                  · exact absurd (by simpa using h') hc2
                subst hu'
                simp only [ne_eq]
                exact hc1

/-- C1 witness: the Cargo filter at a concrete input. -/
theorem claim_C1_witness :
    (⟨"ripgrep", "14.1.0", "14.1.1"⟩ : PackageUpdate).current_version ≠
      (⟨"ripgrep", "14.1.0", "14.1.1"⟩ : PackageUpdate).new_version :=
  claim_C1_amended.1 "ripgrep v14.1.0:\n    rg\n" (fun _ => some "14.1.1")
    ⟨"ripgrep", "14.1.0", "14.1.1"⟩ (by decide)

theorem not_mem_append_char {c : Char} {a b : List Char} (ha : c ∉ a) (hb : c ∉ b) :
    c ∉ a ++ b := by
  simp [List.mem_append, ha, hb]

theorem not_mem_cons_char {c x : Char} {b : List Char} (hx : c ≠ x) (hb : c ∉ b) :
    c ∉ x :: b := by
  simp [List.mem_cons, hx, hb]

/-- C3: a Homebrew `outdated --verbose` line `name (current) < new` (with
no parentheses inside the current version, no `<` left of the separator,
and token-shaped edges) yields exactly
`PackageUpdate{name, current, new}`; a line containing no `(` at all
yields no update. -/
theorem claim_C3 :
    (∀ name cur new : List Char,
      name ≠ [] → new ≠ [] →
      (∀ c, name.head? = some c → nonWS c = true) →
      (∀ c, name.getLast? = some c → nonWS c = true) →
      (∀ c, cur.head? = some c → nonWS c = true) →
      (∀ c, cur.getLast? = some c → nonWS c = true) →
      (∀ c, new.head? = some c → nonWS c = true) →
      (∀ c, new.getLast? = some c → nonWS c = true) →
      '<' ∉ name → '<' ∉ cur → '(' ∉ cur → ')' ∉ cur →
      '\n' ∉ name → '\n' ∉ cur → '\n' ∉ new →
      '\r' ∉ name → '\r' ∉ cur → '\r' ∉ new →
      HomebrewManager.list_updates
        (name ++ ' ' :: '(' :: (cur ++ ')' :: ' ' :: '<' :: ' ' :: new)).asString =
        [⟨name.asString, cur.asString, new.asString⟩]) ∧
    (∀ line : List Char, '(' ∉ line → '\n' ∉ line → '\r' ∉ line →
      HomebrewManager.list_updates line.asString = []) := by
  constructor
  · intro name cur new hnn hne hnh hnl hch hcl hvh hvl hltn hltc hpc hqc
      hnln hnlc hnlv hcrn hcrc hcrv
    set l := name ++ ' ' :: '(' :: (cur ++ ')' :: ' ' :: '<' :: ' ' :: new) with hldef
    have hdata : (l.asString).data = l := rfl
    have hlnn : '\n' ∉ l := by
      refine not_mem_append_char hnln (not_mem_cons_char (by decide)
        (not_mem_cons_char (by decide) (not_mem_append_char hnlc
          (not_mem_cons_char (by decide) (not_mem_cons_char (by decide)
            (not_mem_cons_char (by decide) (not_mem_cons_char (by decide) hnlv)))))))
    have hlcr : '\r' ∉ l := by
      refine not_mem_append_char hcrn (not_mem_cons_char (by decide)
        (not_mem_cons_char (by decide) (not_mem_append_char hcrc
          (not_mem_cons_char (by decide) (not_mem_cons_char (by decide)
            (not_mem_cons_char (by decide) (not_mem_cons_char (by decide) hcrv)))))))
    have hlne : l ≠ [] := by
      simp [hldef, hnn]
    have hlines : splitLines l = [l] := splitLines_single hlne hlnn hlcr
    have hlast : l.getLast? = new.getLast? := by
      rw [show l = (name ++ ' ' :: '(' :: (cur ++ [')', ' ', '<', ' '])) ++ new by
        simp [hldef]]
      exact getLast?_append_of_ne_nil hne
    have htrim : trimChars l = l := by
      refine trimChars_eq_self (fun c hc => ?_) (fun c hc => ?_)
      · rw [hldef, head?_append_of_ne_nil hnn] at hc
        exact hnh c hc
      · rw [hlast] at hc
        exact hvl c hc
    have hsplit : splitFirst '<' l =
        some (name ++ ' ' :: '(' :: (cur ++ [')', ' ']), ' ' :: new) := by
      rw [show l = (name ++ ' ' :: '(' :: (cur ++ [')', ' '])) ++ '<' :: (' ' :: new) by
        simp [hldef]]
      refine splitFirst_append ?_
      refine not_mem_append_char hltn (not_mem_cons_char (by decide)
        (not_mem_cons_char (by decide) (not_mem_append_char hltc
          (not_mem_cons_char (by decide) (not_mem_cons_char (by decide) (by simp))))))
    have hinner_last : (name ++ ' ' :: '(' :: (cur ++ [')'])).getLast? = some ')' := by
      rw [show name ++ ' ' :: '(' :: (cur ++ [')']) =
        (name ++ ' ' :: '(' :: cur) ++ [')'] by simp]
      exact List.getLast?_concat _
    have htrimleft : trimChars (name ++ ' ' :: '(' :: (cur ++ [')', ' '])) =
        name ++ ' ' :: '(' :: (cur ++ [')']) := by
      rw [show name ++ ' ' :: '(' :: (cur ++ [')', ' ']) =
        (name ++ ' ' :: '(' :: (cur ++ [')'])) ++ [' '] by simp]
      refine trimChars_snoc_space (by simp [hnn]) (fun c hc => ?_) (fun c hc => ?_)
      · rw [head?_append_of_ne_nil hnn] at hc
        exact hnh c hc
      · rw [hinner_last] at hc
        simp only [Option.some_inj] at hc
        rw [← hc]; decide
    have htrimright : trimChars (' ' :: new) = new :=
      trimChars_cons_space hvh hvl
    have hparse : HomebrewManager.parse_name_and_version
        (name ++ ' ' :: '(' :: (cur ++ [')'])) = some (name, cur) :=
      HomebrewManager.parse_name_and_version_render hnn hnh hnl hch hcl hpc
    unfold HomebrewManager.list_updates
    rw [hdata, hlines]
    simp only [List.flatMap_cons, List.flatMap_nil, List.append_nil, htrim]
    rw [if_neg (by simp [List.isEmpty_iff, hlne])]
    rw [hsplit]
    simp only [htrimleft, htrimright, hparse]
  · intro line hpar hnl hcr
    by_cases hline : line = []
    · subst hline
      rfl
    · have hdata : (line.asString).data = line := rfl
      unfold HomebrewManager.list_updates
      rw [hdata, splitLines_single hline hnl hcr]
      simp only [List.flatMap_cons, List.flatMap_nil, List.append_nil]
      by_cases ht : (trimChars line).isEmpty
      · rw [if_pos ht]
      · rw [if_neg ht]
        cases hsf : splitFirst '<' (trimChars line) with
        | none => rfl
        | some pr =>
          obtain ⟨a, b⟩ := pr
          have hteq : trimChars line = a ++ '<' :: b := splitFirst_eq_some hsf
          have hpa : '(' ∉ trimChars a := by
            intro hmem
            have h1 : '(' ∈ a := mem_of_mem_trimChars hmem
            have h2 : '(' ∈ trimChars line := by
              rw [hteq]
              exact List.mem_append_left _ h1
            exact hpar (mem_of_mem_trimChars h2)
          have hnone : HomebrewManager.parse_name_and_version (trimChars a) = none := by
            unfold HomebrewManager.parse_name_and_version
            rw [rlastIdx_eq_none hpa]
          simp only [hnone]

/-- C3 witness: the spec's concrete examples. -/
theorem claim_C3_witness :
    HomebrewManager.list_updates "git (2.43.0) < 2.44.0" =
      [⟨"git", "2.43.0", "2.44.0"⟩] ∧
    HomebrewManager.list_updates "git 2.43.0" = [] := by
  constructor
  · have h := claim_C3.1 "git".data "2.43.0".data "2.44.0".data
      (by decide) (by decide) (by decide) (by decide) (by decide) (by decide)
      (by decide) (by decide) (by decide) (by decide) (by decide) (by decide)
      (by decide) (by decide) (by decide) (by decide) (by decide) (by decide)
    have hs : ("git".data ++ ' ' :: '(' ::
        ("2.43.0".data ++ ')' :: ' ' :: '<' :: ' ' :: "2.44.0".data)).asString =
        "git (2.43.0) < 2.44.0" := by decide
    rw [hs] at h
    exact h
  · exact claim_C3.2 "git 2.43.0".data (by decide) (by decide) (by decide)

theorem isPrefixOf_eq_false_of_head {b l : List Char} {b0 c : Char}
    (hb : b.head? = some b0) (hc : l.head? = some c) (hne : c ≠ b0) :
    b.isPrefixOf l = false := by
  cases b with
  | nil => simp at hb
  | cons x btl =>
    cases l with
    | nil => simp at hc
    | cons y ltl =>
      simp only [List.head?_cons, Option.some_inj] at hb hc
      subst hb; subst hc
      have hbf : (x == y) = false := beq_eq_false_iff_ne.mpr fun h => hne h.symm
      simp [List.isPrefixOf, hbf]

namespace DnfManager

theorem updatesLoop_step {name arch ver repo : List Char} {rest : List (List Char)}
    {seen : List String} {getCur : String → Option String}
    (hn : name ≠ []) (hv : ver ≠ []) (hr : repo ≠ [])
    (hnw : ∀ c ∈ name, nonWS c = true) (haw : ∀ c ∈ arch, nonWS c = true)
    (hvw : ∀ c ∈ ver, nonWS c = true) (hrw : ∀ c ∈ repo, nonWS c = true)
    (hdot : '.' ∉ arch)
    (hU : ∀ c, name.head? = some c → c ≠ 'U' ∧ c ≠ 'R') :
    updatesLoop getCur
      (((name ++ '.' :: arch) ++ ' ' :: ver ++ ' ' :: repo) :: rest) seen =
      if seen.contains name.asString then updatesLoop getCur rest seen
      else ⟨name.asString, (getCur name.asString).getD "unknown", ver.asString⟩ ::
        updatesLoop getCur rest (name.asString :: seen) := by
  set tok := name ++ '.' :: arch with htok
  have htokne : tok ≠ [] := by simp [htok, hn]
  have htokw : ∀ c ∈ tok, nonWS c = true := by
    intro c hc
    rw [htok, List.mem_append, List.mem_cons] at hc
    rcases hc with hc | hc | hc
    · exact hnw c hc
    · subst hc; decide
    · exact haw c hc
  set l := tok ++ ' ' :: ver ++ ' ' :: repo with hldef
  have hhead : l.head? = name.head? := by
    rw [show l = name ++ ('.' :: arch ++ (' ' :: ver ++ ' ' :: repo)) by simp [hldef, htok],
      head?_append_of_ne_nil hn]
  have htrim : trimChars l = l := by
    refine trimChars_eq_self (fun c hc => ?_) (fun c hc => ?_)
    · rw [hhead] at hc
      exact hnw c (mem_of_head?_eq hc)
    · rw [show l = (tok ++ ' ' :: ver ++ [' ']) ++ repo by simp [hldef],
        getLast?_append_of_ne_nil hr] at hc
      exact hrw c (mem_of_getLast?_eq hc)
  have hempty : l.isEmpty = false := by
    simp [hldef, List.isEmpty_iff, htokne]
  obtain ⟨n0, ntl, hname⟩ := List.exists_cons_of_ne_nil hn
  have hn0 : l.head? = some n0 := by rw [hhead, hname]; rfl
  have hU0 := hU n0 (by rw [hname]; rfl)
  have hpre1 : banner1.isPrefixOf l = false :=
    isPrefixOf_eq_false_of_head
      (show banner1.head? = some 'U' from by decide) hn0 hU0.1
  have hpre2 : banner2.isPrefixOf l = false :=
    isPrefixOf_eq_false_of_head
      (show banner2.head? = some 'R' from by decide) hn0 hU0.2
  have hsWS : splitWS l = [tok, ver, repo] :=
    splitWS_three htokne hv hr htokw hvw hrw
  have hrs : rsplitOnce '.' tok = some (name, arch) := rsplitOnce_append hdot
  simp only [updatesLoop, htrim, hempty, hpre1, hpre2, Bool.or_self, Bool.or_false,
    Bool.false_or, hsWS, hrs, List.headD, List.length_cons, List.length_nil,
    List.get?, Option.getD_some]
  simp

end DnfManager

/-- C4: in the DNF backend's `list_updates`, the package token is split on
the last `.` to strip the architecture; two report lines for the same
`name.arch` differing only in the repository column yield exactly one
`PackageUpdate` (first occurrence wins); and a failing per-name
current-version lookup degrades `current_version` to `"unknown"`. -/
theorem claim_C4 (name arch ver repo1 repo2 : List Char)
    (getCur : String → Option String)
    (hn : name ≠ []) (hv : ver ≠ []) (h1 : repo1 ≠ []) (h2 : repo2 ≠ [])
    (hnw : ∀ c ∈ name, nonWS c = true) (haw : ∀ c ∈ arch, nonWS c = true)
    (hvw : ∀ c ∈ ver, nonWS c = true) (h1w : ∀ c ∈ repo1, nonWS c = true)
    (h2w : ∀ c ∈ repo2, nonWS c = true)
    (hdot : '.' ∉ arch)
    (hgc : getCur name.asString = none)
    (hU : ∀ c, name.head? = some c → c ≠ 'U' ∧ c ≠ 'R') :
    DnfManager.list_updates
      ((((name ++ '.' :: arch) ++ ' ' :: ver ++ ' ' :: repo1) ++ '\n' ::
        (((name ++ '.' :: arch) ++ ' ' :: ver ++ ' ' :: repo2) ++ ['\n']))).asString
      getCur =
      [⟨name.asString, "unknown", ver.asString⟩] := by
  have htokw : ∀ c ∈ name ++ '.' :: arch, nonWS c = true := by
    intro c hc
    rw [List.mem_append, List.mem_cons] at hc
    rcases hc with hc | hc | hc
    · exact hnw c hc
    · subst hc; decide
    · exact haw c hc
  have hlinewf : ∀ repo : List Char, (∀ c ∈ repo, nonWS c = true) →
      '\n' ∉ (name ++ '.' :: arch) ++ ' ' :: ver ++ ' ' :: repo ∧
      '\r' ∉ (name ++ '.' :: arch) ++ ' ' :: ver ++ ' ' :: repo := by
    intro repo hrw
    rw [show (name ++ '.' :: arch) ++ ' ' :: ver ++ ' ' :: repo =
      (name ++ '.' :: arch) ++ ((' ' :: ver) ++ (' ' :: repo)) by simp]
    exact no_nl_cr_append (not_mem_of_all_nonWS htokw)
      (no_nl_cr_append
        (no_nl_cr_cons (by decide) (by decide) (not_mem_of_all_nonWS hvw))
        (no_nl_cr_cons (by decide) (by decide) (not_mem_of_all_nonWS hrw)))
  have hl1 := hlinewf repo1 h1w
  have hl2 := hlinewf repo2 h2w
  unfold DnfManager.list_updates
  rw [show (((((name ++ '.' :: arch) ++ ' ' :: ver ++ ' ' :: repo1) ++ '\n' ::
      (((name ++ '.' :: arch) ++ ' ' :: ver ++ ' ' :: repo2) ++ ['\n']))).asString).data =
      (((name ++ '.' :: arch) ++ ' ' :: ver ++ ' ' :: repo1) ++ '\n' ::
      (((name ++ '.' :: arch) ++ ' ' :: ver ++ ' ' :: repo2) ++ ['\n'])) from rfl]
  rw [splitLines_cons_line hl1.1 hl1.2,
    show ((name ++ '.' :: arch) ++ ' ' :: ver ++ ' ' :: repo2) ++ ['\n'] =
      ((name ++ '.' :: arch) ++ ' ' :: ver ++ ' ' :: repo2) ++ '\n' :: [] from rfl,
    splitLines_cons_line hl2.1 hl2.2]
  rw [show splitLines [] = [] from rfl]
  rw [DnfManager.updatesLoop_step hn hv h1 hnw haw hvw h1w hdot hU]
  rw [if_neg (by simp)]
  rw [DnfManager.updatesLoop_step hn hv h2 hnw haw hvw h2w hdot hU]
  rw [if_pos (by simp)]
  rw [hgc]
  rfl

/-- C4 witness: a concrete two-line multi-arch report with a failing
current-version lookup. -/
theorem claim_C4_witness :
    DnfManager.list_updates
      "pkg.x86_64 1.0-2 updates\npkg.x86_64 1.0-2 copr:extra\n"
      (fun _ => none) =
      [⟨"pkg", "unknown", "1.0-2"⟩] := by
  have h := claim_C4 "pkg".data "x86_64".data "1.0-2".data "updates".data
    "copr:extra".data (fun _ => none) (by decide) (by decide) (by decide)
    (by decide) (by decide) (by decide) (by decide) (by decide) (by decide)
    (by decide) rfl (by decide)
  have hs : (((("pkg".data ++ '.' :: "x86_64".data) ++ ' ' :: "1.0-2".data ++
      ' ' :: "updates".data) ++ '\n' ::
      ((("pkg".data ++ '.' :: "x86_64".data) ++ ' ' :: "1.0-2".data ++
      ' ' :: "copr:extra".data) ++ ['\n']))).asString =
      "pkg.x86_64 1.0-2 updates\npkg.x86_64 1.0-2 copr:extra\n" := by decide
  rw [hs] at h
  exact h

/-- C5: the Flatpak normalized version string equals `"branch: <branch>"`
exactly when the version column is empty (and is `"<version> (<branch>)"`
otherwise); and `list_updates` joins the updates listing against the
installed map keyed by application ID, defaulting `current_version` to
`"unknown"` on a miss. -/
theorem claim_C5 :
    (∀ v b : String,
      FlatpakManager.normalizeVersion v b = "branch: " ++ b ↔ v = "") ∧
    (∀ v b : String, v ≠ "" →
      FlatpakManager.normalizeVersion v b = v ++ " (" ++ b ++ ")") ∧
    (∀ a nv nb v b : List Char,
      a ≠ [] → nv ≠ [] → nb ≠ [] → v ≠ [] → b ≠ [] →
      (∀ c ∈ a, nonWS c = true) → (∀ c ∈ nv, nonWS c = true) →
      (∀ c ∈ nb, nonWS c = true) → (∀ c ∈ v, nonWS c = true) →
      (∀ c ∈ b, nonWS c = true) →
      FlatpakManager.list_updates (a ++ '\t' :: nv ++ '\t' :: nb).asString
        ("Application ID Version Branch".data ++ '\n' ::
          ((a ++ ' ' :: v ++ ' ' :: b) ++ ['\n'])).asString =
        [⟨a.asString, (FlatpakManager.normalizeVersionChars v b).asString,
          (FlatpakManager.normalizeVersionChars nv nb).asString⟩]) ∧
    (∀ a nv nb other v b : List Char,
      a ≠ [] → nv ≠ [] → nb ≠ [] → other ≠ [] → v ≠ [] → b ≠ [] →
      (∀ c ∈ a, nonWS c = true) → (∀ c ∈ nv, nonWS c = true) →
      (∀ c ∈ nb, nonWS c = true) → (∀ c ∈ other, nonWS c = true) →
      (∀ c ∈ v, nonWS c = true) → (∀ c ∈ b, nonWS c = true) →
      other ≠ a →
      FlatpakManager.list_updates (a ++ '\t' :: nv ++ '\t' :: nb).asString
        ("Application ID Version Branch".data ++ '\n' ::
          ((other ++ ' ' :: v ++ ' ' :: b) ++ ['\n'])).asString =
        [⟨a.asString, "unknown",
          (FlatpakManager.normalizeVersionChars nv nb).asString⟩]) := by
  have hinst : ∀ id v b : List Char, id ≠ [] → v ≠ [] → b ≠ [] →
      (∀ c ∈ id, nonWS c = true) → (∀ c ∈ v, nonWS c = true) →
      (∀ c ∈ b, nonWS c = true) →
      FlatpakManager.get_all_installed_info
        ("Application ID Version Branch".data ++ '\n' ::
          ((id ++ ' ' :: v ++ ' ' :: b) ++ ['\n'])).asString =
        [(id, (v, b))] := by
    intro id v b hid hv hb hidw hvw hbw
    have hlwf : '\n' ∉ id ++ ' ' :: v ++ ' ' :: b ∧
        '\r' ∉ id ++ ' ' :: v ++ ' ' :: b := by
      rw [show id ++ ' ' :: v ++ ' ' :: b = id ++ ((' ' :: v) ++ (' ' :: b)) by simp]
      exact no_nl_cr_append (not_mem_of_all_nonWS hidw)
        (no_nl_cr_append
          (no_nl_cr_cons (by decide) (by decide) (not_mem_of_all_nonWS hvw))
          (no_nl_cr_cons (by decide) (by decide) (not_mem_of_all_nonWS hbw)))
    have htrim : trimChars (id ++ ' ' :: v ++ ' ' :: b) =
        id ++ ' ' :: v ++ ' ' :: b := by
      refine trimChars_eq_self (fun c hc => ?_) (fun c hc => ?_)
      · rw [show id ++ ' ' :: v ++ ' ' :: b =
          id ++ ((' ' :: v) ++ (' ' :: b)) by simp,
          head?_append_of_ne_nil hid] at hc
        exact hidw c (mem_of_head?_eq hc)
      · rw [show id ++ ' ' :: v ++ ' ' :: b = (id ++ ' ' :: v ++ [' ']) ++ b by simp,
          getLast?_append_of_ne_nil hb] at hc
        exact hbw c (mem_of_getLast?_eq hc)
    unfold FlatpakManager.get_all_installed_info
    rw [show (("Application ID Version Branch".data ++ '\n' ::
        ((id ++ ' ' :: v ++ ' ' :: b) ++ ['\n'])).asString).data =
        "Application ID Version Branch".data ++ '\n' ::
        ((id ++ ' ' :: v ++ ' ' :: b) ++ ['\n']) from rfl]
    rw [splitLines_cons_line (by decide) (by decide),
      show (id ++ ' ' :: v ++ ' ' :: b) ++ ['\n'] =
        (id ++ ' ' :: v ++ ' ' :: b) ++ '\n' :: [] from rfl,
      splitLines_cons_line hlwf.1 hlwf.2,
      show splitLines [] = [] from rfl]
    simp only [List.foldl_cons, List.foldl_nil, htrim]
    rw [if_neg (by simp [List.isEmpty_iff, hid])]
    rw [splitWS_three hid hv hb hidw hvw hbw]
    rfl
  have hupd : ∀ a nv nb : List Char, a ≠ [] → nv ≠ [] → nb ≠ [] →
      (∀ c ∈ a, nonWS c = true) → (∀ c ∈ nv, nonWS c = true) →
      (∀ c ∈ nb, nonWS c = true) →
      ∀ instOut : String,
      FlatpakManager.list_updates (a ++ '\t' :: nv ++ '\t' :: nb).asString
        instOut =
        [⟨a.asString,
          (match (FlatpakManager.get_all_installed_info instOut).lookup a with
           | some (v, b) => FlatpakManager.normalizeVersionChars v b
           | none => "unknown".data).asString,
          (FlatpakManager.normalizeVersionChars nv nb).asString⟩] := by
    intro a nv nb ha hnv hnb haw hnvw hnbw instOut
    have htab : ∀ t : List Char, (∀ c ∈ t, nonWS c = true) → '\t' ∉ t := by
      intro t htw hmem
      have := htw _ hmem
      simp [nonWS, Char.isWhitespace] at this
    have hlwf : '\n' ∉ a ++ '\t' :: nv ++ '\t' :: nb ∧
        '\r' ∉ a ++ '\t' :: nv ++ '\t' :: nb := by
      rw [show a ++ '\t' :: nv ++ '\t' :: nb =
        a ++ (('\t' :: nv) ++ ('\t' :: nb)) by simp]
      exact no_nl_cr_append (not_mem_of_all_nonWS haw)
        (no_nl_cr_append
          (no_nl_cr_cons (by decide) (by decide) (not_mem_of_all_nonWS hnvw))
          (no_nl_cr_cons (by decide) (by decide) (not_mem_of_all_nonWS hnbw)))
    have hne : a ++ '\t' :: nv ++ '\t' :: nb ≠ [] := by simp [ha]
    have htrim : trimChars (a ++ '\t' :: nv ++ '\t' :: nb) =
        a ++ '\t' :: nv ++ '\t' :: nb := by
      refine trimChars_eq_self (fun c hc => ?_) (fun c hc => ?_)
      · rw [show a ++ '\t' :: nv ++ '\t' :: nb =
          a ++ (('\t' :: nv) ++ ('\t' :: nb)) by simp,
          head?_append_of_ne_nil ha] at hc
        exact haw c (mem_of_head?_eq hc)
      · rw [show a ++ '\t' :: nv ++ '\t' :: nb =
          (a ++ '\t' :: nv ++ ['\t']) ++ nb by simp,
          getLast?_append_of_ne_nil hnb] at hc
        exact hnbw c (mem_of_getLast?_eq hc)
    unfold FlatpakManager.list_updates
    rw [show ((a ++ '\t' :: nv ++ '\t' :: nb).asString).data =
        a ++ '\t' :: nv ++ '\t' :: nb from rfl]
    rw [splitLines_single hne hlwf.1 hlwf.2]
    simp only [List.flatMap_cons, List.flatMap_nil, List.append_nil, htrim]
    rw [if_neg (by simp [List.isEmpty_iff, hne])]
    rw [splitChar_three (htab a haw) (htab nv hnvw) (htab nb hnbw)]
    simp only [List.isEmpty_cons, List.headD, List.get?, Option.map_some',
      Option.getD_some, trimChars_of_all_nonWS hnvw, trimChars_of_all_nonWS hnbw]
    rw [if_neg (by simp)]
  refine ⟨?_, ?_, ?_, ?_⟩
  · intro v b
    constructor
    · intro h
      by_contra hv
      have hvd : v.data ≠ [] := fun hh => hv (by
        have : v = String.mk [] := String.ext hh
        simpa using this)
      rw [String.ext_iff] at h
      rw [show (FlatpakManager.normalizeVersion v b).data =
        FlatpakManager.normalizeVersionChars v.data b.data from rfl,
        String.data_append] at h
      unfold FlatpakManager.normalizeVersionChars at h
      rw [if_neg (by simp [List.isEmpty_iff, hvd])] at h
      have hlen : v.data.length = 5 := by
        have hlen0 := congrArg List.length h
        have e1 : (" (".data : List Char).length = 2 := rfl
        have e2 : ("branch: ".data : List Char).length = 8 := rfl
        simp only [List.length_append, e1, e2, List.length_cons,
          List.length_nil] at hlen0
        omega
      have hdrop := congrArg (List.drop 5) h
      rw [show v.data ++ " (".data ++ b.data ++ [')'] =
          v.data ++ (" (".data ++ (b.data ++ [')'])) by simp,
        show (5 : Nat) = v.data.length from hlen.symm, List.drop_left,
        show "branch: ".data ++ b.data =
          ("branc".data : List Char) ++ ("h: ".data ++ b.data) from rfl,
        show v.data.length = ("branc".data : List Char).length by rw [hlen]; decide,
        List.drop_left] at hdrop
      have hdrop2 : (' ' :: '(' :: (b.data ++ [')'])) =
          ('h' :: ':' :: ' ' :: b.data) := hdrop
      simp at hdrop2
    · intro h
      subst h
      apply String.ext
      rw [String.data_append]
      rfl
  · intro v b hv
    have hvd : v.data ≠ [] := fun hh => hv (String.ext (by simpa using hh))
    apply String.ext
    simp only [String.data_append]
    rw [show (FlatpakManager.normalizeVersion v b).data =
      FlatpakManager.normalizeVersionChars v.data b.data from rfl]
    unfold FlatpakManager.normalizeVersionChars
    rw [if_neg (by simp [List.isEmpty_iff, hvd])]
  · intro a nv nb v b ha hnv hnb hv hb haw hnvw hnbw hvw hbw
    rw [hupd a nv nb ha hnv hnb haw hnvw hnbw]
    rw [hinst a v b ha hv hb haw hvw hbw]
    simp [List.lookup]
  · intro a nv nb other v b ha hnv hnb hother hv hb haw hnvw hnbw hotherw hvw hbw
      hne
    rw [hupd a nv nb ha hnv hnb haw hnvw hnbw]
    rw [hinst other v b hother hv hb hotherw hvw hbw]
    have hbeq : (a == other) = false := beq_eq_false_iff_ne.mpr fun h => hne h.symm
    simp only [List.lookup, hbeq]
    rfl

/-- C5 witness: a concrete hit and a concrete miss of the installed map. -/
theorem claim_C5_witness :
    FlatpakManager.list_updates "org.App\t1.1\tstable"
      "Application ID Version Branch\norg.App 1.0 stable\n" =
      [⟨"org.App", "1.0 (stable)", "1.1 (stable)"⟩] ∧
    FlatpakManager.list_updates "org.App\t1.1\tstable"
      "Application ID Version Branch\norg.Other 1.0 stable\n" =
      [⟨"org.App", "unknown", "1.1 (stable)"⟩] := by
  constructor
  · have h := claim_C5.2.2.1 "org.App".data "1.1".data "stable".data "1.0".data
      "stable".data (by decide) (by decide) (by decide) (by decide) (by decide)
      (by decide) (by decide) (by decide) (by decide) (by decide)
    rw [show ("org.App".data ++ '\t' :: "1.1".data ++
        '\t' :: "stable".data).asString = "org.App\t1.1\tstable" from by decide,
      show ("Application ID Version Branch".data ++ '\n' ::
        (("org.App".data ++ ' ' :: "1.0".data ++ ' ' :: "stable".data) ++
          ['\n'])).asString =
        "Application ID Version Branch\norg.App 1.0 stable\n" from by decide] at h
    exact h
  · have h := claim_C5.2.2.2 "org.App".data "1.1".data "stable".data
      "org.Other".data "1.0".data "stable".data (by decide) (by decide)
      (by decide) (by decide) (by decide) (by decide) (by decide) (by decide)
      (by decide) (by decide) (by decide) (by decide) (by decide)
    rw [show ("org.App".data ++ '\t' :: "1.1".data ++
        '\t' :: "stable".data).asString = "org.App\t1.1\tstable" from by decide,
      show ("Application ID Version Branch".data ++ '\n' ::
        (("org.Other".data ++ ' ' :: "1.0".data ++ ' ' :: "stable".data) ++
          ['\n'])).asString =
        "Application ID Version Branch\norg.Other 1.0 stable\n" from by decide] at h
    exact h

/-- C9 counterexample: a well-formed `go version -m` text whose first line
is a binary path containing `path ` (a directory named with a space)
hijacks the unanchored `path\s+([^\s]+)` search, so module-path extraction
returns a token from the header line instead of the module path. -/
theorem claim_C9_counterexample :
    GoManager.extract_module_path
        "/home/my path dir/tool: go1.21.0\npath\tgithub.com/user/myapp\nmod\tgithub.com/user/myapp\tv1.2.3\n" =
      some "dir/tool:" ∧
    some "dir/tool:" ≠ some "github.com/user/myapp" := by
  exact ⟨by decide, by decide⟩

/-- C9 amended: module-path extraction returns the module named on the
`path` line, and version extraction the semantic version of the `mod`
line, provided no earlier position of the text matches the unanchored
pattern (`path`/`mod` followed by whitespace and token(s) of the right
shape); the searches are leftmost, so earlier matching text wins. -/
theorem claim_C9_amended :
    (∀ pre ws module post : List Char,
      (∀ s, s.IsSuffix pre → s ≠ [] →
        GoManager.matchPathAt
          (s ++ ('p' :: 'a' :: 't' :: 'h' :: (ws ++ (module ++ post)))) = none) →
      ws ≠ [] → (∀ c ∈ ws, c.isWhitespace = true) →
      module ≠ [] → (∀ c ∈ module, nonWS c = true) →
      (∀ c, post.head? = some c → c.isWhitespace = true) →
      GoManager.extract_module_path
        (pre ++ 'p' :: 'a' :: 't' :: 'h' :: (ws ++ (module ++ post))).asString =
        some module.asString) ∧
    (∀ pre ws1 mod1 ws2 version post : List Char,
      (∀ s, s.IsSuffix pre → s ≠ [] →
        GoManager.matchModAt
          (s ++ ('m' :: 'o' :: 'd' ::
            (ws1 ++ (mod1 ++ (ws2 ++ (version ++ post)))))) = none) →
      ws1 ≠ [] → (∀ c ∈ ws1, c.isWhitespace = true) →
      mod1 ≠ [] → (∀ c ∈ mod1, nonWS c = true) →
      ws2 ≠ [] → (∀ c ∈ ws2, c.isWhitespace = true) →
      version ≠ [] → (∀ c ∈ version, nonWS c = true) →
      (∀ c, post.head? = some c → c.isWhitespace = true) →
      GoManager.semverPrefix version = true →
      GoManager.extract_version
        (pre ++ 'm' :: 'o' :: 'd' ::
          (ws1 ++ (mod1 ++ (ws2 ++ (version ++ post))))).asString =
        some version.asString) := by
  constructor
  · intro pre ws module post hpre hws hwsall hm hmall hpost
    unfold GoManager.extract_module_path
    rw [show ((pre ++ 'p' :: 'a' :: 't' :: 'h' ::
        (ws ++ (module ++ post))).asString).data =
        pre ++ 'p' :: 'a' :: 't' :: 'h' :: (ws ++ (module ++ post)) from rfl]
    rw [GoManager.scanFirst_append_none hpre]
    simp only [GoManager.scanFirst,
      GoManager.matchPathAt_render hws hwsall hm hmall hpost]
    rfl
  · intro pre ws1 mod1 ws2 version post hpre hw1 hw1a ht1 ht1a hw2 hw2a hver
      hvera hpost hsv
    unfold GoManager.extract_version
    rw [show ((pre ++ 'm' :: 'o' :: 'd' ::
        (ws1 ++ (mod1 ++ (ws2 ++ (version ++ post))))).asString).data =
        pre ++ 'm' :: 'o' :: 'd' ::
          (ws1 ++ (mod1 ++ (ws2 ++ (version ++ post)))) from rfl]
    rw [GoManager.scanFirst_append_none hpre]
    simp only [GoManager.scanFirst,
      GoManager.matchModAt_render hw1 hw1a ht1 ht1a hw2 hw2a hver hvera hpost hsv]
    rfl

/-- C9 witness: the spec's example build-info text. -/
theorem claim_C9_witness :
    GoManager.extract_module_path
        "/tmp/tool: go1.21.0\npath\tgithub.com/user/myapp\nmod\tgithub.com/user/myapp\tv1.2.3\n" =
      some "github.com/user/myapp" ∧
    GoManager.extract_version
        "/tmp/tool: go1.21.0\npath\tgithub.com/user/myapp\nmod\tgithub.com/user/myapp\tv1.2.3\n" =
      some "v1.2.3" := by
  constructor
  · have h := claim_C9_amended.1 "/tmp/tool: go1.21.0\n".data ['\t']
      "github.com/user/myapp".data "\nmod\tgithub.com/user/myapp\tv1.2.3\n".data
      ?_ (by decide) (by decide) (by decide) (by decide) (by decide)
    · rw [show (("/tmp/tool: go1.21.0\n".data ++ 'p' :: 'a' :: 't' :: 'h' ::
        (['\t'] ++ ("github.com/user/myapp".data ++
          "\nmod\tgithub.com/user/myapp\tv1.2.3\n".data)))).asString =
        "/tmp/tool: go1.21.0\npath\tgithub.com/user/myapp\nmod\tgithub.com/user/myapp\tv1.2.3\n"
        from by decide] at h
      exact h
    · intro s hs hne
      have hfin : ∀ s ∈ ("/tmp/tool: go1.21.0\n".data).tails, s ≠ [] →
          GoManager.matchPathAt (s ++ ('p' :: 'a' :: 't' :: 'h' ::
            (['\t'] ++ ("github.com/user/myapp".data ++
              "\nmod\tgithub.com/user/myapp\tv1.2.3\n".data)))) = none := by decide
      exact hfin s ((List.mem_tails _ _).mpr hs) hne
  · have h := claim_C9_amended.2
      "/tmp/tool: go1.21.0\npath\tgithub.com/user/myapp\n".data ['\t']
      "github.com/user/myapp".data ['\t'] "v1.2.3".data ['\n']
      ?_ (by decide) (by decide) (by decide) (by decide) (by decide) (by decide)
      (by decide) (by decide) (by decide) (by decide)
    · rw [show (("/tmp/tool: go1.21.0\npath\tgithub.com/user/myapp\n".data ++
        'm' :: 'o' :: 'd' :: (['\t'] ++ ("github.com/user/myapp".data ++
          (['\t'] ++ ("v1.2.3".data ++ ['\n'])))))).asString =
        "/tmp/tool: go1.21.0\npath\tgithub.com/user/myapp\nmod\tgithub.com/user/myapp\tv1.2.3\n"
        from by decide] at h
      exact h
    · intro s hs hne
      have hfin : ∀ s ∈ ("/tmp/tool: go1.21.0\npath\tgithub.com/user/myapp\n".data).tails,
          s ≠ [] →
          GoManager.matchModAt (s ++ ('m' :: 'o' :: 'd' ::
            (['\t'] ++ ("github.com/user/myapp".data ++
              (['\t'] ++ ("v1.2.3".data ++ ['\n'])))))) = none := by decide
      exact hfin s ((List.mem_tails _ _).mpr hs) hne

/-- C2 counterexample: a local-path crate following a registry crate is
excluded as a record, but its indented binary line `local-tool` is
appended to the preceding record's binaries — so the preceding record's
binaries are not the indented lines following its own header, and the
excluded entry does contribute binary entries. -/
theorem claim_C2_counterexample :
    CargoManager.parse_cargo_install_list
        "cargo-watch v8.5.2:\n    cargo-watch\nlocal-tool v1.0.0 (/home/user/local-tool):\n    local-tool\n" =
      [⟨"cargo-watch", "8.5.2", ["cargo-watch", "local-tool"]⟩] := by
  decide

/-- C2 amended: for every well-formed `cargo install --list` text
(rendered from a structured listing), the parser returns one record per
non-local header line with the version stripped of the leading `v`; a
header with a trailing parenthesized local path contributes no record,
but its indented binary lines are appended to the record currently being
built (and are dropped when no record precedes); the final record is
flushed without a trailing blank line. -/
theorem claim_C2_amended (es : List CargoManager.Entry)
    (hes : ∀ e ∈ es, CargoManager.wfEntry e) :
    CargoManager.parse_cargo_install_list (CargoManager.renderListing es) =
      CargoManager.expectedRecords es :=
  CargoManager.parse_render hes

/-- C2 witness: the spec's concrete example (one crate, one binary, no
trailing blank line). -/
theorem claim_C2_witness :
    CargoManager.parse_cargo_install_list "cargo-watch v8.5.2:\n    cargo-watch\n" =
      [⟨"cargo-watch", "8.5.2", ["cargo-watch"]⟩] := by
  have h := claim_C2_amended
    [⟨"cargo-watch".data, "8.5.2".data, none, ["cargo-watch".data]⟩] (by decide)
  rw [show CargoManager.renderListing
      [⟨"cargo-watch".data, "8.5.2".data, none, ["cargo-watch".data]⟩] =
      "cargo-watch v8.5.2:\n    cargo-watch\n" from by decide] at h
  rw [h]
  decide
